import Mathlib

/-!
Verification of the two algorithmic components of the repository: the
Markdown-to-slide-deck engine (src/agent-pptx/paper_pdf/markdown2pptx_hz.py)
and the PDF figure-region extraction heuristic
(src/agent-pptx/paper_pdf/get_img_from_pdf.py).

Python strings are modelled as lists of characters (so that every string
operation is a structural computation the kernel can evaluate); Python floats
are modelled as rational numbers; Python loops that are not structurally
recursive carry an explicit fuel argument that provably suffices, so that the
definitions stay executable.
-/

/-- Python strings are modelled as lists of characters. -/
abbrev PyStr := List Char

/-- Models the Python method str.strip (on ASCII input): whitespace removed
from both ends. -/
def pyStrip (s : PyStr) : PyStr :=
  ((s.dropWhile Char.isWhitespace).reverse.dropWhile Char.isWhitespace).reverse

/-- Models the Python method call s.startswith(pat). -/
def pyStartsWith (pat s : PyStr) : Bool := List.isPrefixOf pat s

/-- Models the Python expression chr(10).join(parts). -/
def pyJoinNL (parts : List PyStr) : PyStr := List.intercalate ['\n'] parts

/-- Models the Python expression content.split(chr(10)): every piece is kept,
including empty ones; the result is never empty. -/
def pySplitLines : PyStr → List PyStr
  | [] => [[]]
  | c :: rest =>
    match pySplitLines rest with
    | [] => [[c]]
    | h :: t => if c = '\n' then [] :: h :: t else (c :: h) :: t

/-- The literal used by the slide-heading test of parse_markdown. -/
def hashSpace : PyStr := ['#', ' ']

/-- The literal used by the module-heading test of parse_markdown. -/
def hash2Space : PyStr := ['#', '#', ' ']

/-- A second-level section of the parsed document
(markdown2pptx_hz.py, parse_markdown, lines 110-113). -/
structure ModuleRecord where
  title : PyStr
  content : PyStr
deriving DecidableEq

/-- A parsed slide (markdown2pptx_hz.py, parse_markdown, lines 73-77). -/
structure SlideRecord where
  title : PyStr
  description : PyStr
  modules : List ModuleRecord
deriving DecidableEq

/-- Whether a line opens a new slide: its stripped form starts with a hash
and a space (parse_markdown line 69). -/
def isSlideHeading (l : PyStr) : Bool := pyStartsWith hashSpace (pyStrip l)

/-- Whether a line opens a new module: its stripped form starts with two
hashes and a space (parse_markdown line 93). -/
def isModuleHeading (l : PyStr) : Bool := pyStartsWith hash2Space (pyStrip l)

/-- The description loop of parse_markdown (lines 82-87) runs while this
holds: the line is not a module heading.  A later slide heading does NOT
stop the loop — the source only tests for two hashes there. -/
def notModuleHeading (l : PyStr) : Bool := !(isModuleHeading l)

/-- The module-content loop of parse_markdown (lines 100-108) runs while
this holds: the line is neither kind of heading. -/
def notAnyHeading (l : PyStr) : Bool := !(isSlideHeading l) && !(isModuleHeading l)

/-- Line filter of the description loop (parse_markdown lines 85-86): a line
whose stripped form is nonempty contributes that stripped form; every other
line (empty or whitespace-only) contributes nothing. -/
def descKeep (l : PyStr) : Option PyStr :=
  if pyStrip l ≠ [] then some (pyStrip l) else none

/-- Line filter of the module-content loop (parse_markdown lines 104-107):
a line whose stripped form is nonempty contributes that stripped form; a line
that is exactly empty contributes an empty segment; a whitespace-only line
contributes nothing. -/
def contentKeep (l : PyStr) : Option PyStr :=
  if pyStrip l ≠ [] then some (pyStrip l)
  else if l = [] then some [] else none

/-- Flushing the slide under construction into the output
(parse_markdown lines 70-71 and 119-120). -/
def flushSlide : Option SlideRecord → List SlideRecord
  | none => []
  | some s => [s]

/-- The main loop of parse_markdown (lines 65-116).  The two inner
collection loops are rendered with takeWhile and dropWhile.  The loop is
structurally recursive on an explicit fuel argument; every step consumes at
least one line, so the fuel used below (length of the input plus one) never
runs out — the fuel-zero branch returns what the exhausted loop would. -/
def parseLoopF : ℕ → List PyStr → Option SlideRecord → List SlideRecord
  | 0, _, cur => flushSlide cur
  | _ + 1, [], cur => flushSlide cur
  | fuel + 1, line :: rest, cur =>
    let t := pyStrip line
    if pyStartsWith hashSpace t then
      let descLines := (rest.takeWhile notModuleHeading).filterMap descKeep
      let slide : SlideRecord := ⟨pyStrip (t.drop 2), pyJoinNL descLines, []⟩
      flushSlide cur ++ parseLoopF fuel (rest.dropWhile notModuleHeading) (some slide)
    else if pyStartsWith hash2Space t then
      match cur with
      | some s =>
        let contentLines := (rest.takeWhile notAnyHeading).filterMap contentKeep
        let m : ModuleRecord := ⟨pyStrip (t.drop 3), pyJoinNL contentLines⟩
        parseLoopF fuel (rest.dropWhile notAnyHeading)
          (some ⟨s.title, s.description, s.modules ++ [m]⟩)
      | none => parseLoopF fuel rest cur
    else parseLoopF fuel rest cur

/-- parse_markdown on an explicit list of lines. -/
def parseMarkdownLines (lines : List PyStr) : List SlideRecord :=
  parseLoopF (lines.length + 1) lines none

/-- parse_markdown on the raw text (the file-reading part of the source is
modelled separately by safeReadFile). -/
def parseMarkdown (content : PyStr) : List SlideRecord :=
  parseMarkdownLines (pySplitLines content)

/-!
Inline bold formatter (markdown2pptx_hz.py, apply_text_formatting,
lines 147-160).  The regular expression split on the pattern
two-stars dot-star-lazy two-stars is modelled by an explicit leftmost-shortest
scanner over the character list; the caller splits the content on newlines
first, so the lines handled here contain no newline and the dot of the
pattern never has to exclude one.
-/

/-- Splits a character list at its first adjacent pair of stars: findStars l
is some (p, s) when l = p ++ star :: star :: s and p contains no adjacent
pair of stars. -/
def findStars : List Char → Option (List Char × List Char)
  | [] => none
  | c :: rest =>
    match rest with
    | [] => none
    | c2 :: rest2 =>
      if c = '*' ∧ c2 = '*' then some ([], rest2)
      else
        match findStars rest with
        | none => none
        | some (p, s) => some (c :: p, s)

/-- The alternating parts produced by re.split with the captured bold
pattern: parts at even positions are the non-matched residues, parts at odd
positions are the matches (each of the form two stars, minimal middle, two
stars).  Fuel decreases once per match; a match consumes at least four
characters, so the fuel used below never runs out. -/
def reSplitAux : ℕ → List Char → List (List Char)
  | 0, l => [l]
  | fuel + 1, l =>
    match findStars l with
    | none => [l]
    | some (pre, rest) =>
      match findStars rest with
      | none => [l]
      | some (mid, rest2) =>
        pre :: ('*' :: '*' :: (mid ++ ['*', '*'])) :: reSplitAux fuel rest2

/-- Models re.split of the captured bold pattern over one line. -/
def reSplitBold (l : List Char) : List (List Char) := reSplitAux (l.length + 1) l

/-- One run of formatted text (one add_run call of apply_text_formatting). -/
structure TextSpan where
  text : List Char
  bold : Bool
deriving DecidableEq

/-- Models the Python test part.startswith(two stars). -/
def startsStars : List Char → Bool
  | '*' :: '*' :: _ => true
  | _ => false

/-- The test of apply_text_formatting line 151: the part starts AND ends with
two stars.  Note that the two-character part consisting of two stars alone
passes this test. -/
def boldFlag (part : List Char) : Bool := startsStars part && startsStars part.reverse

/-- What one split part contributes (apply_text_formatting lines 150-160):
a part passing the bold test becomes a bold span with the first two and last
two characters removed; any other nonempty part becomes a plain span; empty
parts contribute nothing. -/
def spanOfPart (part : List Char) : Option TextSpan :=
  if boldFlag part then some ⟨(part.drop 2).dropLast.dropLast, true⟩
  else if part ≠ [] then some ⟨part, false⟩ else none

/-- The spans emitted for one line of content text. -/
def formatLine (line : List Char) : List TextSpan :=
  (reSplitBold line).filterMap spanOfPart

/-- Concatenated surface text of a span list. -/
def spansText (spans : List TextSpan) : List Char :=
  (spans.map TextSpan.text).flatten

/-- The line with the markers of every well-formed matched bold pair removed
(the residues are kept verbatim); defined over the same scanner and the same
fuel discipline as reSplitAux. -/
def stripBoldAux : ℕ → List Char → List Char
  | 0, l => l
  | fuel + 1, l =>
    match findStars l with
    | none => l
    | some (pre, rest) =>
      match findStars rest with
      | none => l
      | some (mid, rest2) => pre ++ mid ++ stripBoldAux fuel rest2

/-- The line with all matched bold markers removed. -/
def stripBoldMarkers (l : List Char) : List Char := stripBoldAux (l.length + 1) l

/-- The bracketed contents of the well-formed bold matches of a line,
in order. -/
def boldPartsAux : ℕ → List Char → List (List Char)
  | 0, _ => []
  | fuel + 1, l =>
    match findStars l with
    | none => []
    | some (_, rest) =>
      match findStars rest with
      | none => []
      | some (mid, rest2) => mid :: boldPartsAux fuel rest2

/-- The bracketed contents of all well-formed bold matches of a line. -/
def boldContents (l : List Char) : List (List Char) := boldPartsAux (l.length + 1) l

/-- The non-matched residue parts of the split, at even positions. -/
def plainPartsAux : ℕ → List Char → List (List Char)
  | 0, l => [l]
  | fuel + 1, l =>
    match findStars l with
    | none => [l]
    | some (pre, rest) =>
      match findStars rest with
      | none => [l]
      | some (_, rest2) => pre :: plainPartsAux fuel rest2

/-- The non-matched residue parts of the split of a line. -/
def residueParts (l : List Char) : List (List Char) := plainPartsAux (l.length + 1) l

/-!
Encoding fallback (markdown2pptx_hz.py, safe_read_file, lines 10-51).
Bytes are modelled as natural numbers below 256.  The UTF-8 codec is
implemented; the four other non-trivial codecs of the fallback list (gbk,
gb2312, cp936, cp1252) are stdlib table codecs and enter the model as
abstract decoder functions.  Latin-1 decodes every byte, which the model
implements exactly.
-/

/-- Whether a byte is a UTF-8 continuation byte. -/
def isCont (b : ℕ) : Bool := 128 ≤ b && b ≤ 191

/-- Valid range test for the second byte of a three-byte UTF-8 sequence
(excluding overlong and surrogate encodings, as the strict Python codec
does). -/
def cont2ok (b b2 : ℕ) : Bool :=
  if b = 224 then 160 ≤ b2 && b2 ≤ 191
  else if b = 237 then 128 ≤ b2 && b2 ≤ 159
  else isCont b2

/-- Valid range test for the second byte of a four-byte UTF-8 sequence. -/
def cont3ok (b b2 : ℕ) : Bool :=
  if b = 240 then 144 ≤ b2 && b2 ≤ 191
  else if b = 244 then 128 ≤ b2 && b2 ≤ 143
  else isCont b2

/-- Strict UTF-8 decoding: the Python behaviour of bytes.decode with the
utf-8 codec and default error handling, returning none where Python raises
UnicodeDecodeError. -/
def utf8Decode : List ℕ → Option (List Char)
  | [] => some []
  | b :: rest =>
    if b < 128 then (utf8Decode rest).map (fun cs => Char.ofNat b :: cs)
    else if 194 ≤ b && b ≤ 223 then
      match rest with
      | b2 :: rest2 =>
        if isCont b2 then
          (utf8Decode rest2).map (fun cs => Char.ofNat ((b - 192) * 64 + (b2 - 128)) :: cs)
        else none
      | [] => none
    else if 224 ≤ b && b ≤ 239 then
      match rest with
      | b2 :: b3 :: rest3 =>
        if cont2ok b b2 && isCont b3 then
          (utf8Decode rest3).map
            (fun cs => Char.ofNat ((b - 224) * 4096 + (b2 - 128) * 64 + (b3 - 128)) :: cs)
        else none
      | _ => none
    else if 240 ≤ b && b ≤ 244 then
      match rest with
      | b2 :: b3 :: b4 :: rest4 =>
        if cont3ok b b2 && isCont b3 && isCont b4 then
          (utf8Decode rest4).map
            (fun cs =>
              Char.ofNat ((b - 240) * 262144 + (b2 - 128) * 4096 + (b3 - 128) * 64 + (b4 - 128))
                :: cs)
        else none
      | _ => none
    else none

/-- UTF-8 decoding with the ignore error handler, as used by the last-resort
branch of safe_read_file (line 47): each maximal ill-formed subsequence is
dropped and decoding continues.  The fuel argument makes the recursion
structural; each step consumes at least one byte, so the fuel used by
utf8DecodeIgnore never runs out. -/
def utf8DecodeIgnoreF : ℕ → List ℕ → List Char
  | 0, _ => []
  | _ + 1, [] => []
  | fuel + 1, b :: rest =>
    if b < 128 then Char.ofNat b :: utf8DecodeIgnoreF fuel rest
    else if 194 ≤ b && b ≤ 223 then
      match rest with
      | b2 :: rest2 =>
        if isCont b2 then Char.ofNat ((b - 192) * 64 + (b2 - 128)) :: utf8DecodeIgnoreF fuel rest2
        else utf8DecodeIgnoreF fuel rest
      | [] => []
    else if 224 ≤ b && b ≤ 239 then
      match rest with
      | b2 :: b3 :: rest3 =>
        if cont2ok b b2 then
          if isCont b3 then
            Char.ofNat ((b - 224) * 4096 + (b2 - 128) * 64 + (b3 - 128))
              :: utf8DecodeIgnoreF fuel rest3
          else utf8DecodeIgnoreF fuel (b3 :: rest3)
        else utf8DecodeIgnoreF fuel rest
      | [b2] => if cont2ok b b2 then [] else utf8DecodeIgnoreF fuel [b2]
      | [] => []
    else if 240 ≤ b && b ≤ 244 then
      match rest with
      | b2 :: b3 :: b4 :: rest4 =>
        if cont3ok b b2 then
          if isCont b3 then
            if isCont b4 then
              Char.ofNat ((b - 240) * 262144 + (b2 - 128) * 4096 + (b3 - 128) * 64 + (b4 - 128))
                :: utf8DecodeIgnoreF fuel rest4
            else utf8DecodeIgnoreF fuel (b4 :: rest4)
          else utf8DecodeIgnoreF fuel (b3 :: b4 :: rest4)
        else utf8DecodeIgnoreF fuel rest
      | [b2, b3] =>
        if cont3ok b b2 then (if isCont b3 then [] else utf8DecodeIgnoreF fuel [b3])
        else utf8DecodeIgnoreF fuel [b2, b3]
      | [b2] => if cont3ok b b2 then [] else utf8DecodeIgnoreF fuel [b2]
      | [] => []
    else utf8DecodeIgnoreF fuel rest

/-- UTF-8 decoding with the ignore error handler, at adequate fuel. -/
def utf8DecodeIgnore (bs : List ℕ) : List Char := utf8DecodeIgnoreF (bs.length + 1) bs

/-- The Unicode replacement character. -/
def replacementChar : Char := Char.ofNat 65533

/-- This follows the words of the specification, not the source: decode as
UTF-8 but REPLACE each maximal undecodable subsequence with the replacement
character.  It exists only to compare the claimed last-resort behaviour with
the one the source implements (which ignores, that is drops, such bytes). -/
def specUtf8ReplaceF : ℕ → List ℕ → List Char
  | 0, _ => []
  | _ + 1, [] => []
  | fuel + 1, b :: rest =>
    if b < 128 then Char.ofNat b :: specUtf8ReplaceF fuel rest
    else if 194 ≤ b && b ≤ 223 then
      match rest with
      | b2 :: rest2 =>
        if isCont b2 then Char.ofNat ((b - 192) * 64 + (b2 - 128)) :: specUtf8ReplaceF fuel rest2
        else replacementChar :: specUtf8ReplaceF fuel rest
      | [] => [replacementChar]
    else if 224 ≤ b && b ≤ 239 then
      match rest with
      | b2 :: b3 :: rest3 =>
        if cont2ok b b2 then
          if isCont b3 then
            Char.ofNat ((b - 224) * 4096 + (b2 - 128) * 64 + (b3 - 128))
              :: specUtf8ReplaceF fuel rest3
          else replacementChar :: specUtf8ReplaceF fuel (b3 :: rest3)
        else replacementChar :: specUtf8ReplaceF fuel rest
      | [b2] =>
        if cont2ok b b2 then [replacementChar]
        else replacementChar :: specUtf8ReplaceF fuel [b2]
      | [] => [replacementChar]
    else if 240 ≤ b && b ≤ 244 then
      match rest with
      | b2 :: b3 :: b4 :: rest4 =>
        if cont3ok b b2 then
          if isCont b3 then
            if isCont b4 then
              Char.ofNat ((b - 240) * 262144 + (b2 - 128) * 4096 + (b3 - 128) * 64 + (b4 - 128))
                :: specUtf8ReplaceF fuel rest4
            else replacementChar :: specUtf8ReplaceF fuel (b4 :: rest4)
          else replacementChar :: specUtf8ReplaceF fuel (b3 :: b4 :: rest4)
        else replacementChar :: specUtf8ReplaceF fuel rest
      | [b2, b3] =>
        if cont3ok b b2 then (if isCont b3 then [replacementChar]
          else replacementChar :: specUtf8ReplaceF fuel [b3])
        else replacementChar :: specUtf8ReplaceF fuel [b2, b3]
      | [b2] =>
        if cont3ok b b2 then [replacementChar]
        else replacementChar :: specUtf8ReplaceF fuel [b2]
      | [] => [replacementChar]
    else replacementChar :: specUtf8ReplaceF fuel rest

/-- The spec-side replace decoder at adequate fuel. -/
def specUtf8Replace (bs : List ℕ) : List Char := specUtf8ReplaceF (bs.length + 1) bs

/-- Latin-1 maps every byte to the character with the same code point; it
never fails. -/
def latin1Decode (bs : List ℕ) : List Char := bs.map Char.ofNat

/-- The encodings of the fallback list of safe_read_file (line 30), in
source order. -/
inductive PyEncoding
  | utf8
  | gbk
  | gb2312
  | cp936
  | latin1
  | cp1252
deriving DecidableEq

/-- The ordered fallback list of safe_read_file line 30. -/
def fallbackEncodings : List PyEncoding :=
  [PyEncoding.utf8, PyEncoding.gbk, PyEncoding.gb2312,
   PyEncoding.cp936, PyEncoding.latin1, PyEncoding.cp1252]

/-- The four stdlib table codecs the model does not implement, as abstract
decoders (none models a UnicodeDecodeError). -/
structure ExternalCodecs where
  gbk : List ℕ → Option PyStr
  gb2312 : List ℕ → Option PyStr
  cp936 : List ℕ → Option PyStr
  cp1252 : List ℕ → Option PyStr

/-- Decoding one candidate encoding of the fallback list. -/
def decodeWith (ext : ExternalCodecs) : PyEncoding → List ℕ → Option PyStr
  | PyEncoding.utf8, bs => utf8Decode bs
  | PyEncoding.gbk, bs => ext.gbk bs
  | PyEncoding.gb2312, bs => ext.gb2312 bs
  | PyEncoding.cp936, bs => ext.cp936 bs
  | PyEncoding.latin1, bs => some (latin1Decode bs)
  | PyEncoding.cp1252, bs => ext.cp1252 bs

/-- The loop of safe_read_file lines 32-42: try each encoding in order and
return the first successful decode. -/
def tryEncodings (ext : ExternalCodecs) : List PyEncoding → List ℕ → Option PyStr
  | [], _ => none
  | e :: rest, bs =>
    match decodeWith ext e bs with
    | some s => some s
    | none => tryEncodings ext rest bs

/-- Models safe_read_file (lines 10-51).  The file argument is none when the
file cannot be read at all (the only fatal case); detected models the chardet
result as an abstract decoder together with its confidence; a failing decode
under the detected encoding falls through to the fallback chain exactly as
the try/except of the source does. -/
def safeReadFile (ext : ExternalCodecs)
    (detected : Option ((List ℕ → Option PyStr) × ℚ)) :
    Option (List ℕ) → Except PyStr PyStr
  | none => Except.error ("cannot read file".data)
  | some bs =>
    let viaDetect : Option PyStr :=
      match detected with
      | some dc => if dc.2 > 7/10 then dc.1 bs else none
      | none => none
    match viaDetect with
    | some s => Except.ok s
    | none =>
      match tryEncodings ext fallbackEncodings bs with
      | some s => Except.ok s
      | none => Except.ok (utf8DecodeIgnore bs)

/-!
Region geometry (get_img_from_pdf.py).  Page coordinates are modelled as
rational numbers; a Region is the axis-aligned rectangle (x0, y0, x1, y1).
-/

/-- An axis-aligned rectangle in page coordinates. -/
structure Rect where
  x0 : ℚ
  y0 : ℚ
  x1 : ℚ
  y1 : ℚ
deriving DecidableEq

/-- Bounding-box union of two rectangles
(merge_overlapping_regions lines 289-293). -/
def rectUnion (a b : Rect) : Rect :=
  ⟨min a.x0 b.x0, min a.y0 b.y0, max a.x1 b.x1, max a.y1 b.y1⟩

/-- Minimum of a list of rationals, as the Python builtin min over a
nonempty list; the empty case (on which Python raises) returns zero and is
never reached by the callers below. -/
def listMinQ : List ℚ → ℚ
  | [] => 0
  | x :: rest => rest.foldl min x

/-- Maximum of a list of rationals, as the Python builtin max. -/
def listMaxQ : List ℚ → ℚ
  | [] => 0
  | x :: rest => rest.foldl max x

/-- Bounding box of a nonempty list of rectangles. -/
def bboxList : List Rect → Rect
  | [] => ⟨0, 0, 0, 0⟩
  | r :: rest => rest.foldl rectUnion r

/-- Geometric containment of one rectangle in another. -/
def rectContains (outer inner : Rect) : Prop :=
  outer.x0 ≤ inner.x0 ∧ outer.y0 ≤ inner.y0 ∧ inner.x1 ≤ outer.x1 ∧ inner.y1 ≤ outer.y1

/-- Overlap ratio, intersection area over union area
(merge_overlapping_regions, calculate_overlap, lines 209-223). -/
def calculateOverlap (r1 r2 : Rect) : ℚ :=
  let xOverlap := max 0 (min r1.x1 r2.x1 - max r1.x0 r2.x0)
  let yOverlap := max 0 (min r1.y1 r2.y1 - max r1.y0 r2.y0)
  let intersection := xOverlap * yOverlap
  let area1 := (r1.x1 - r1.x0) * (r1.y1 - r1.y0)
  let area2 := (r2.x1 - r2.x0) * (r2.y1 - r2.y0)
  let union := area1 + area2 - intersection
  if union > 0 then intersection / union else 0

/-- Same-row test of merge_overlapping_regions (is_same_row, lines 225-237):
the vertical overlap exceeds half the smaller height.  The row_threshold
parameter of the source is unused by its body and is omitted. -/
def isSameRow (r1 r2 : Rect) : Prop :=
  max 0 (min r1.y1 r2.y1 - max r1.y0 r2.y0) > min (r1.y1 - r1.y0) (r2.y1 - r2.y0) * (1/2)

instance (r1 r2 : Rect) : Decidable (isSameRow r1 r2) := by
  unfold isSameRow; infer_instance

/-- Horizontal-proximity test of merge_overlapping_regions
(is_horizontally_close, lines 239-254). -/
def isHorizontallyClose (r1 r2 : Rect) (dthr : ℚ) : Prop :=
  (if r2.x0 ≥ r1.x1 then r2.x0 - r1.x1
   else if r1.x0 ≥ r2.x1 then r1.x0 - r2.x1
   else 0) ≤ dthr

instance (r1 r2 : Rect) (dthr : ℚ) : Decidable (isHorizontallyClose r1 r2 dthr) := by
  unfold isHorizontallyClose; infer_instance

/-- Merge condition of merge_overlapping_regions lines 275-285: overlap
ratio above the threshold, or same row and horizontally close (the latter
with the default distance threshold 100 of the source). -/
def shouldMerge (thr : ℚ) (cur r2 : Rect) : Prop :=
  calculateOverlap cur r2 > thr ∨ (isSameRow cur r2 ∧ isHorizontallyClose cur r2 100)

instance (thr : ℚ) (cur r2 : Rect) : Decidable (shouldMerge thr cur r2) := by
  unfold shouldMerge; infer_instance

/-- One inner scan of merge_overlapping_regions (lines 271-295): every
still-unused region that satisfies the merge condition against the running
region is absorbed into it, updating the running region as the scan goes;
the Bool records whether any merge happened during the scan. -/
def innerFor (thr : ℚ) (i : ℕ) : List (ℕ × Rect) → Rect → List ℕ → Rect × List ℕ × Bool
  | [], cur, used => (cur, used, false)
  | p :: rest, cur, used =>
    if p.1 ∈ used ∨ i = p.1 then innerFor thr i rest cur used
    else if shouldMerge thr cur p.2 then
      let res := innerFor thr i rest (rectUnion cur p.2) (p.1 :: used)
      (res.1, res.2.1, true)
    else innerFor thr i rest cur used

/-- The while merged_any loop of merge_overlapping_regions (lines 268-295):
inner scans repeat until one makes no merge.  Each merging scan claims at
least one fresh index out of pairs, so the fuel the callers pass (the length
of pairs) is never exhausted before the loop stabilises; and a truncated run
would in any case return the same kind of state (running region plus used
set) that the invariants below are about. -/
def growLoop (thr : ℚ) (i : ℕ) (pairs : List (ℕ × Rect)) :
    ℕ → Rect → List ℕ → Rect × List ℕ
  | 0, cur, used => (cur, used)
  | fuel + 1, cur, used =>
    let res := innerFor thr i pairs cur used
    if res.2.2 then growLoop thr i pairs fuel res.1 res.2.1
    else (res.1, res.2.1)

/-- The outer loop of merge_overlapping_regions (lines 259-297): each index
not yet used seeds a new running region, grows it to a fixed point, and
emits it. -/
def outerFor (thr : ℚ) (pairs : List (ℕ × Rect)) :
    List (ℕ × Rect) → List ℕ → List Rect
  | [], _ => []
  | p :: rest, used =>
    if p.1 ∈ used then outerFor thr pairs rest used
    else
      let res := growLoop thr p.1 pairs pairs.length p.2 (p.1 :: used)
      res.1 :: outerFor thr pairs rest res.2

/-- merge_overlapping_regions (lines 202-299) with its overlap threshold as
a parameter (source default 0.3). -/
def mergeOverlappingRegions (regions : List Rect) (thr : ℚ) : List Rect :=
  if regions.isEmpty then []
  else outerFor thr regions.enum regions.enum []

/-!
Ghost variants of the merge loops used only in proofs: they carry the list
of absorbed indexed regions instead of the running bounding box.  bboxPairs
recovers the running box from the group.
-/

/-- Bounding box of the regions of a nonempty indexed group. -/
def bboxPairs (g : List (ℕ × Rect)) : Rect := bboxList (g.map Prod.snd)

/-- Ghost counterpart of innerFor carrying the group of absorbed regions. -/
def ginnerFor (thr : ℚ) (i : ℕ) :
    List (ℕ × Rect) → List (ℕ × Rect) → List ℕ → List (ℕ × Rect) × List ℕ × Bool
  | [], acc, used => (acc, used, false)
  | p :: rest, acc, used =>
    if p.1 ∈ used ∨ i = p.1 then ginnerFor thr i rest acc used
    else if shouldMerge thr (bboxPairs acc) p.2 then
      let res := ginnerFor thr i rest (acc ++ [p]) (p.1 :: used)
      (res.1, res.2.1, true)
    else ginnerFor thr i rest acc used

/-- Ghost counterpart of growLoop. -/
def ggrowLoop (thr : ℚ) (i : ℕ) (pairs : List (ℕ × Rect)) :
    ℕ → List (ℕ × Rect) → List ℕ → List (ℕ × Rect) × List ℕ
  | 0, acc, used => (acc, used)
  | fuel + 1, acc, used =>
    let res := ginnerFor thr i pairs acc used
    if res.2.2 then ggrowLoop thr i pairs fuel res.1 res.2.1
    else (res.1, res.2.1)

/-- Ghost counterpart of outerFor, returning the groups and the final used
set. -/
def gouterFor (thr : ℚ) (pairs : List (ℕ × Rect)) :
    List (ℕ × Rect) → List ℕ → List (List (ℕ × Rect)) × List ℕ
  | [], used => ([], used)
  | p :: rest, used =>
    if p.1 ∈ used then gouterFor thr pairs rest used
    else
      let res := ggrowLoop thr p.1 pairs pairs.length [p] (p.1 :: used)
      let tail := gouterFor thr pairs rest res.2
      (res.1 :: tail.1, tail.2)

/-!
Vector-drawing clustering (get_img_from_pdf.py, cluster_drawings,
lines 64-103) and the Region emission for drawing groups
(detect_image_regions, lines 39-51).  Only the bounding rectangle of a
drawing takes part, so drawings are modelled as rectangles.
-/

/-- Squared Euclidean distance between the centers of the bounding boxes of
two drawings (cluster_drawings lines 91-94). -/
def centerDistSq (r1 r2 : Rect) : ℚ :=
  ((r1.x0 + r1.x1) / 2 - (r2.x0 + r2.x1) / 2) ^ 2
    + ((r1.y0 + r1.y1) / 2 - (r2.y0 + r2.y1) / 2) ^ 2

/-- The proximity test of cluster_drawings line 96.  The source compares the
square root of the squared distance with the threshold; for the nonnegative
threshold the source uses (50) this is equivalent to comparing the squared
distance with the squared threshold, which is what the model does. -/
def centerWithin (r1 r2 : Rect) (thr : ℚ) : Prop := centerDistSq r1 r2 < thr ^ 2

instance (r1 r2 : Rect) (thr : ℚ) : Decidable (centerWithin r1 r2 thr) := by
  unfold centerWithin; infer_instance

/-- The inner scan of cluster_drawings (lines 82-98): every still-unused
drawing whose center is within the threshold OF THE SEED drawing joins the
group.  Note the comparison is always against the seed (the source computes
rect1 from the seed inside the scan), never against an already absorbed
member, so chains are not followed. -/
def clusterInner (thr : ℚ) (i : ℕ) (seed : Rect) :
    List (ℕ × Rect) → List ℕ → List (ℕ × Rect) × List ℕ
  | [], used => ([], used)
  | p :: rest, used =>
    if p.1 ∈ used ∨ i = p.1 then clusterInner thr i seed rest used
    else if centerWithin seed p.2 thr then
      let res := clusterInner thr i seed rest (p.1 :: used)
      (p :: res.1, res.2)
    else clusterInner thr i seed rest used

/-- The outer loop of cluster_drawings (lines 74-101): each unused drawing
seeds one group; the trivially-true nonemptiness guard of line 100 is kept. -/
def clusterOuter (thr : ℚ) (pairs : List (ℕ × Rect)) :
    List (ℕ × Rect) → List ℕ → List (List (ℕ × Rect))
  | [], _ => []
  | p :: rest, used =>
    if p.1 ∈ used then clusterOuter thr pairs rest used
    else
      let res := clusterInner thr p.1 p.2 pairs (p.1 :: used)
      let group := p :: res.1
      if group.length > 0 then group :: clusterOuter thr pairs rest res.2
      else clusterOuter thr pairs rest res.2

/-- cluster_drawings (lines 64-103); the source default threshold is 50. -/
def clusterDrawings (drawings : List Rect) (thr : ℚ) : List (List Rect) :=
  if drawings.isEmpty then []
  else (clusterOuter thr drawings.enum drawings.enum []).map (List.map Prod.snd)

/-- Region emission for one drawing group (detect_image_regions lines
44-51): the union bounding box of the group, kept only when its width and
its height both exceed 50. -/
def drawingGroupRegion (g : List Rect) : Option Rect :=
  let x0 := listMinQ (g.map Rect.x0)
  let y0 := listMinQ (g.map Rect.y0)
  let x1 := listMaxQ (g.map Rect.x1)
  let y1 := listMaxQ (g.map Rect.y1)
  if x1 - x0 > 50 ∧ y1 - y0 > 50 then some ⟨x0, y0, x1, y1⟩ else none

/-- The drawing-region detector of detect_image_regions (lines 39-51):
cluster the drawings (threshold 50) and emit one Region per sufficiently
large group. -/
def drawingRegions (drawings : List Rect) : List Rect :=
  (clusterDrawings drawings 50).filterMap drawingGroupRegion

/-!
Same-row merging (get_img_from_pdf.py, merge_same_row_regions and helpers,
lines 407-481).
-/

/-- Same-horizontal-line test (is_same_horizontal_line, lines 449-456):
vertical centers differ by at most the threshold. -/
def isSameHorizontalLine (r1 r2 : Rect) (thr : ℚ) : Prop :=
  |(r1.y0 + r1.y1) / 2 - (r2.y0 + r2.y1) / 2| ≤ thr

instance (r1 r2 : Rect) (thr : ℚ) : Decidable (isSameHorizontalLine r1 r2 thr) := by
  unfold isSameHorizontalLine; infer_instance

/-- Horizontal gap between two regions (get_horizontal_distance,
lines 458-467). -/
def getHorizontalDistance (r1 r2 : Rect) : ℚ :=
  if r1.x1 < r2.x0 then r2.x0 - r1.x1
  else if r2.x1 < r1.x0 then r1.x0 - r2.x1
  else 0

/-- Bounding box of one row (merge_regions_in_row, lines 469-481); the
source returns a single region unchanged and otherwise takes coordinate-wise
minima and maxima. -/
def mergeRegionsInRow : List Rect → Rect
  | [r] => r
  | regions =>
    ⟨listMinQ (regions.map Rect.x0), listMinQ (regions.map Rect.y0),
     listMaxQ (regions.map Rect.x1), listMaxQ (regions.map Rect.y1)⟩

/-- The last element of the current row (the Python expression
current_row_regions[-1]); the callers keep the row nonempty, so the default
is never consulted. -/
def lastRegion (l : List Rect) : Rect := l.getLastD ⟨0, 0, 0, 0⟩

/-- The row-building loop of merge_same_row_regions (lines 425-445): a
region on the same horizontal line as the last row member and close enough
horizontally extends the row, anything else flushes the row and starts a new
one; the final row is flushed at the end. -/
def msrLoop (rowThr gapThr : ℚ) : List Rect → List Rect → List Rect
  | [], currentRow => [mergeRegionsInRow currentRow]
  | r :: rest, currentRow =>
    if isSameHorizontalLine (lastRegion currentRow) r rowThr ∧
        getHorizontalDistance (lastRegion currentRow) r ≤ gapThr then
      msrLoop rowThr gapThr rest (currentRow ++ [r])
    else
      mergeRegionsInRow currentRow :: msrLoop rowThr gapThr rest [r]

/-- merge_same_row_regions (lines 407-447); source defaults are a row
threshold of 30 and a horizontal gap threshold of 100.  The sort by the top
edge uses a stable insertion sort, as the stable Python builtin sorted
does. -/
def mergeSameRowRegions (regions : List Rect) (rowThr gapThr : ℚ) : List Rect :=
  if regions.isEmpty then []
  else
    match List.insertionSort (fun a b : Rect => a.y0 ≤ b.y0) regions with
    | [] => []
    | first :: restSorted => msrLoop rowThr gapThr restSorted [first]

/-- Ghost counterpart of msrLoop used only in proofs: it collects the rows
themselves instead of their bounding boxes. -/
def msrRows (rowThr gapThr : ℚ) : List Rect → List Rect → List (List Rect)
  | [], currentRow => [currentRow]
  | r :: rest, currentRow =>
    if isSameHorizontalLine (lastRegion currentRow) r rowThr ∧
        getHorizontalDistance (lastRegion currentRow) r ≤ gapThr then
      msrRows rowThr gapThr rest (currentRow ++ [r])
    else currentRow :: msrRows rowThr gapThr rest [r]

/-!
Slide layout (markdown2pptx_hz.py, create_pptx_from_markdown,
lines 163-322), fixed-height variant.  Lengths are in centimeters.
-/

/-- An absolutely positioned rectangle of the slide canvas. -/
structure LayoutBox where
  left : ℚ
  top : ℚ
  width : ℚ
  height : ℚ
deriving DecidableEq

/-- The left column (lines 220-268): module k gets a title rectangle of
height 0.8 at x = 1 and below it a content rectangle of height 4.2; after a
module the cursor advances by 4.8 + 0.3 (the source comment calls this
title height plus a content height of 4 plus the gap 0.3, although the
content rectangle actually placed is 4.2 high). -/
def leftModuleShapes : ℚ → List ModuleRecord → List (ModuleRecord × LayoutBox × LayoutBox)
  | _, [] => []
  | y, m :: rest =>
    (m, ⟨1, y, 6, 0.8⟩, ⟨1, y + 0.8, 14.5, 4.2⟩)
      :: leftModuleShapes (y + (4.8 + 0.3)) rest

/-- The right column (lines 270-318): title rectangles at x = 16, content
rectangles of height 6.0, cursor advance 6.8 + 0.3. -/
def rightModuleShapes : ℚ → List ModuleRecord → List (ModuleRecord × LayoutBox × LayoutBox)
  | _, [] => []
  | y, m :: rest =>
    (m, ⟨16, y, 6, 0.8⟩, ⟨16, y + 0.8, 14.5, 6.0⟩)
      :: rightModuleShapes (y + (6.8 + 0.3)) rest

/-- The module split of lines 216-218 (the first three modules go left, the
next two right, the rest nowhere) and both columns, each starting at the
vertical offset 3.0 of lines 222 and 272. -/
def slideModuleShapes (modules : List ModuleRecord) :
    List (ModuleRecord × LayoutBox × LayoutBox) :=
  leftModuleShapes 3 (modules.take 3) ++ rightModuleShapes 3 ((modules.drop 3).take 2)

/-!
Theorems.  First the generic list helpers and the stepping lemmas of the
parser loop, then the claim theorems.
-/

theorem takeWhile_all {α : Type} {p : α → Bool} :
    ∀ {l : List α}, (∀ x ∈ l, p x = true) → l.takeWhile p = l := by
  intro l h
  induction l with
  | nil => rfl
  | cons a t _ =>
    have ha := h a (by simp)
    simp [List.takeWhile_cons, ha]
    exact fun x hx => h x (by simp [hx])

theorem dropWhile_all {α : Type} {p : α → Bool} :
    ∀ {l : List α}, (∀ x ∈ l, p x = true) → l.dropWhile p = [] := by
  intro l h
  induction l with
  | nil => rfl
  | cons a t _ =>
    have ha := h a (by simp)
    simp [List.dropWhile_cons, ha]
    exact fun x hx => h x (by simp [hx])

theorem filterMapCongr {α β : Type} {f g : α → Option β} :
    ∀ {l : List α}, (∀ a ∈ l, f a = g a) → l.filterMap f = l.filterMap g := by
  intro l h
  induction l with
  | nil => rfl
  | cons a t ih =>
    simp only [List.filterMap_cons, h a (by simp)]
    rw [ih fun x hx => h x (by simp [hx])]

theorem parseLoopF_nil (f : ℕ) (cur : Option SlideRecord) :
    parseLoopF f [] cur = flushSlide cur := by
  cases f <;> rfl

theorem parseLoopF_step_slide (f : ℕ) (line : PyStr) (rest : List PyStr)
    (cur : Option SlideRecord) (h : pyStartsWith hashSpace (pyStrip line) = true) :
    parseLoopF (f + 1) (line :: rest) cur =
      flushSlide cur ++ parseLoopF f (rest.dropWhile notModuleHeading)
        (some ⟨pyStrip ((pyStrip line).drop 2),
               pyJoinNL ((rest.takeWhile notModuleHeading).filterMap descKeep), []⟩) := by
  simp only [parseLoopF, h, if_true]

theorem parseLoopF_step_module (f : ℕ) (line : PyStr) (rest : List PyStr) (s : SlideRecord)
    (h1 : pyStartsWith hashSpace (pyStrip line) = false)
    (h2 : pyStartsWith hash2Space (pyStrip line) = true) :
    parseLoopF (f + 1) (line :: rest) (some s) =
      parseLoopF f (rest.dropWhile notAnyHeading)
        (some ⟨s.title, s.description,
               s.modules ++ [⟨pyStrip ((pyStrip line).drop 3),
                 pyJoinNL ((rest.takeWhile notAnyHeading).filterMap contentKeep)⟩]⟩) := by
  simp only [parseLoopF, h1, h2, Bool.false_eq_true, if_false, if_true]

theorem parseLoopF_step_skipmod (f : ℕ) (line : PyStr) (rest : List PyStr)
    (h1 : pyStartsWith hashSpace (pyStrip line) = false)
    (h2 : pyStartsWith hash2Space (pyStrip line) = true) :
    parseLoopF (f + 1) (line :: rest) none = parseLoopF f rest none := by
  simp only [parseLoopF, h1, h2, Bool.false_eq_true, if_false, if_true]

theorem parseLoopF_step_other (f : ℕ) (line : PyStr) (rest : List PyStr)
    (cur : Option SlideRecord)
    (h1 : pyStartsWith hashSpace (pyStrip line) = false)
    (h2 : pyStartsWith hash2Space (pyStrip line) = false) :
    parseLoopF (f + 1) (line :: rest) cur = parseLoopF f rest cur := by
  simp only [parseLoopF, h1, h2, Bool.false_eq_true, if_false]

theorem boolFalseOfNotTrue {b : Bool} (h : ¬ b = true) : b = false := by
  cases b
  · rfl
  · exact absurd rfl h

theorem parseLoopF_congr : ∀ (f1 f2 : ℕ) (lines : List PyStr) (cur : Option SlideRecord),
    lines.length < f1 → lines.length < f2 →
    parseLoopF f1 lines cur = parseLoopF f2 lines cur := by
  intro f1
  induction f1 with
  | zero => intro f2 lines cur h1 _; exact absurd h1 (Nat.not_lt_zero _)
  | succ a ih =>
    intro f2 lines cur h1 h2
    cases lines with
    | nil => rw [parseLoopF_nil, parseLoopF_nil]
    | cons line rest =>
      cases f2 with
      | zero => exact absurd h2 (Nat.not_lt_zero _)
      | succ b =>
        have hr : rest.length < a := Nat.lt_of_succ_lt_succ h1
        have hrb : rest.length < b := Nat.lt_of_succ_lt_succ h2
        by_cases hA : pyStartsWith hashSpace (pyStrip line) = true
        · rw [parseLoopF_step_slide a _ _ _ hA, parseLoopF_step_slide b _ _ _ hA]
          exact congrArg _ (ih b _ _
            (lt_of_le_of_lt ((List.dropWhile_sublist _).length_le) hr)
            (lt_of_le_of_lt ((List.dropWhile_sublist _).length_le) hrb))
        · have hA2 := boolFalseOfNotTrue hA
          by_cases hB : pyStartsWith hash2Space (pyStrip line) = true
          · cases cur with
            | some s =>
              rw [parseLoopF_step_module a _ _ _ hA2 hB,
                parseLoopF_step_module b _ _ _ hA2 hB]
              exact ih b _ _
                (lt_of_le_of_lt ((List.dropWhile_sublist _).length_le) hr)
                (lt_of_le_of_lt ((List.dropWhile_sublist _).length_le) hrb)
            | none =>
              rw [parseLoopF_step_skipmod a _ _ hA2 hB,
                parseLoopF_step_skipmod b _ _ hA2 hB]
              exact ih b _ _ hr hrb
          · have hB2 := boolFalseOfNotTrue hB
            rw [parseLoopF_step_other a _ _ _ hA2 hB2,
              parseLoopF_step_other b _ _ _ hA2 hB2]
            exact ih b _ _ hr hrb

theorem parseLoopF_no_modules : ∀ (f : ℕ) (lines : List PyStr) (cur : Option SlideRecord),
    (∀ l ∈ lines, isModuleHeading l = false) →
    (∀ s0, cur = some s0 → s0.modules = []) →
    ∀ s ∈ parseLoopF f lines cur, s.modules = [] := by
  intro f
  induction f with
  | zero =>
    intro lines cur _ hcur s hs
    cases cur with
    | none => simp [parseLoopF, flushSlide] at hs
    | some s0 =>
      simp [parseLoopF, flushSlide] at hs
      exact hs ▸ hcur s0 rfl
  | succ a ih =>
    intro lines cur hlines hcur s hs
    cases lines with
    | nil =>
      rw [parseLoopF_nil] at hs
      cases cur with
      | none => simp [flushSlide] at hs
      | some s0 =>
        simp [flushSlide] at hs
        exact hs ▸ hcur s0 rfl
    | cons line rest =>
      have hrest : ∀ l ∈ rest, isModuleHeading l = false :=
        fun l hl => hlines l (by simp [hl])
      by_cases hA : pyStartsWith hashSpace (pyStrip line) = true
      · rw [parseLoopF_step_slide a _ _ _ hA] at hs
        rcases List.mem_append.mp hs with hf | hrec
        · cases cur with
          | none => simp [flushSlide] at hf
          | some s0 =>
            simp [flushSlide] at hf
            exact hf ▸ hcur s0 rfl
        · exact ih _ _
            (fun l hl => hrest l ((List.dropWhile_sublist _).subset hl))
            (fun s0 e => by cases e; rfl) s hrec
      · have hA2 := boolFalseOfNotTrue hA
        by_cases hB : pyStartsWith hash2Space (pyStrip line) = true
        · exact absurd hB (by
            have := hlines line (by simp)
            simp [isModuleHeading] at this
            simp [this])
        · have hB2 := boolFalseOfNotTrue hB
          rw [parseLoopF_step_other a _ _ _ hA2 hB2] at hs
          exact ih _ _ hrest hcur s hs

theorem parseLoopF_skip_leading : ∀ (pre : List PyStr) (f : ℕ) (rest : List PyStr),
    (pre ++ rest).length < f →
    (∀ l ∈ pre, isSlideHeading l = false) →
    parseLoopF f (pre ++ rest) none = parseLoopF (rest.length + 1) rest none := by
  intro pre
  induction pre with
  | nil =>
    intro f rest hf _
    exact parseLoopF_congr f (rest.length + 1) rest none (by simpa using hf) (Nat.lt_succ_self _)
  | cons l pre2 ih =>
    intro f rest hf hpre
    cases f with
    | zero => exact absurd hf (Nat.not_lt_zero _)
    | succ a =>
      have hA : pyStartsWith hashSpace (pyStrip l) = false := by
        have := hpre l (by simp)
        simpa [isSlideHeading] using this
      have hrec : (pre2 ++ rest).length < a := by
        simp only [List.cons_append, List.length_cons] at hf
        exact Nat.lt_of_succ_lt_succ hf
      have hpre2 : ∀ x ∈ pre2, isSlideHeading x = false :=
        fun x hx => hpre x (by simp [hx])
      rw [List.cons_append]
      by_cases hB : pyStartsWith hash2Space (pyStrip l) = true
      · rw [parseLoopF_step_skipmod a _ _ hA hB]
        exact ih a rest hrec hpre2
      · have hB2 := boolFalseOfNotTrue hB
        rw [parseLoopF_step_other a _ _ _ hA hB2]
        exact ih a rest hrec hpre2

/-- C4 (amended): the content of a module is built from the lines up to the
next heading of either level by this rule: a line with nonempty stripped form
contributes its STRIPPED form, a line that is exactly empty is preserved as
an empty segment, and a whitespace-only (blank but nonempty) line is DROPPED
— the segments are then newline-joined.  The original claim fails because
whitespace-only blank lines are dropped rather than preserved. -/
theorem c4_module_content_amended (body : List PyStr)
    (hb : ∀ l ∈ body, pyStartsWith hashSpace (pyStrip l) = false ∧
      pyStartsWith hash2Space (pyStrip l) = false) :
    parseMarkdownLines ("# T".data :: "## M".data :: body) =
      [⟨"T".data, [],
        [⟨"M".data,
          pyJoinNL (body.filterMap fun l =>
            if pyStrip l = [] then (if l = [] then some [] else none)
            else some (pyStrip l))⟩]⟩] := by
  have hall : ∀ l ∈ body, notAnyHeading l = true := by
    intro l hl
    have h := hb l hl
    simp [notAnyHeading, isSlideHeading, isModuleHeading, h.1, h.2]
  unfold parseMarkdownLines
  rw [show ("# T".data :: "## M".data :: body).length + 1 = (body.length + 1 + 1) + 1 by simp]
  rw [parseLoopF_step_slide _ _ _ _ (by decide)]
  have e1 : ("## M".data :: body).dropWhile notModuleHeading = "## M".data :: body := by
    rw [List.dropWhile_cons]
    simp [show notModuleHeading ("## M".data) = false from by decide]
  have e2 : ("## M".data :: body).takeWhile notModuleHeading = [] := by
    rw [List.takeWhile_cons]
    simp [show notModuleHeading ("## M".data) = false from by decide]
  rw [e1, e2]
  rw [parseLoopF_step_module _ _ _ _ (by decide) (by decide)]
  rw [takeWhile_all hall, dropWhile_all hall, parseLoopF_nil]
  have e3 : body.filterMap contentKeep = body.filterMap (fun l =>
      if pyStrip l = [] then (if l = [] then some [] else none)
      else some (pyStrip l)) := by
    refine filterMapCongr fun a _ => ?_
    by_cases h : pyStrip a = [] <;> simp [contentKeep, h]
  simp only [flushSlide, List.nil_append, e3]
  rw [show pyStrip ((pyStrip ("# T".data)).drop 2) = "T".data from by decide,
    show pyStrip ((pyStrip ("## M".data)).drop 3) = "M".data from by decide,
    show pyJoinNL (List.filterMap descKeep []) = [] from by decide]

/-- C4 counterexample: a whitespace-only line between two content lines is
dropped entirely — the parsed content is the two lines with a single newline
between them, not the two lines separated by an empty segment as the claim
(blank lines preserved, not dropped) requires. -/
theorem c4_module_content_cex :
    parseMarkdown ("# T\n## M\na\n \nb".data) =
      [⟨"T".data, [], [⟨"M".data, "a\nb".data⟩]⟩] ∧
    ("a\nb".data : PyStr) ≠ "a\n\nb".data := ⟨by decide, by decide⟩

/-- C4 witness at a concrete body with an empty line (kept as empty segment)
and a whitespace-only line (dropped). -/
theorem c4_module_content_witness :
    parseMarkdownLines ("# T".data :: "## M".data ::
        ["a".data, "".data, " ".data, "b".data]) =
      [⟨"T".data, [],
        [⟨"M".data,
          pyJoinNL ((["a".data, "".data, " ".data, "b".data] : List PyStr).filterMap fun l =>
            if pyStrip l = [] then (if l = [] then some [] else none)
            else some (pyStrip l))⟩]⟩] :=
  c4_module_content_amended _ (by decide)

/-- C5 (amended): the description of a slide is built from the non-blank
lines after its heading, each STRIPPED, newline-joined — but the collection
stops only at the next module (two-hash) heading.  A later slide (one-hash)
heading does not terminate it: such a line is swallowed into the description
as text and opens no new slide.  The original claim (stop at the next heading
of either level, lines verbatim) fails on both counts. -/
theorem c5_description_amended (body : List PyStr)
    (hb : ∀ l ∈ body, pyStartsWith hash2Space (pyStrip l) = false) :
    parseMarkdownLines ("# T".data :: body) =
      [⟨"T".data,
        pyJoinNL (body.filterMap fun l =>
          if pyStrip l = [] then none else some (pyStrip l)), []⟩] := by
  have hall : ∀ l ∈ body, notModuleHeading l = true := by
    intro l hl
    simp [notModuleHeading, isModuleHeading, hb l hl]
  unfold parseMarkdownLines
  rw [show ("# T".data :: body).length + 1 = (body.length + 1) + 1 by simp]
  rw [parseLoopF_step_slide _ _ _ _ (by decide)]
  rw [takeWhile_all hall, dropWhile_all hall, parseLoopF_nil]
  have e3 : body.filterMap descKeep = body.filterMap (fun l =>
      if pyStrip l = [] then none else some (pyStrip l)) := by
    refine filterMapCongr fun a _ => ?_
    by_cases h : pyStrip a = [] <;> simp [descKeep, h]
  simp only [flushSlide, List.nil_append, e3]
  rw [show pyStrip ((pyStrip ("# T".data)).drop 2) = "T".data from by decide]

/-- C5 counterexample: after a slide heading, a SECOND slide heading before
any module heading is swallowed into the description of the first slide (and
no second slide is created), where the claim requires the description to stop
at the next heading of either level. -/
theorem c5_description_cex :
    parseMarkdown ("# A\nintro\n# B\nmore".data) =
      [⟨"A".data, "intro\n# B\nmore".data, []⟩] ∧
    ("intro\n# B\nmore".data : PyStr) ≠ "intro".data := ⟨by decide, by decide⟩

/-- C5 witness: concrete description body containing a later slide heading
line, which ends up inside the description. -/
theorem c5_description_witness :
    parseMarkdownLines ("# T".data :: ["intro".data, "# B".data]) =
      [⟨"T".data,
        pyJoinNL ((["intro".data, "# B".data] : List PyStr).filterMap fun l =>
          if pyStrip l = [] then none else some (pyStrip l)), []⟩] :=
  c5_description_amended _ (by decide)

/-- C9: the parser is total and permissive: (a) an input with no module
heading parses to slides that all have an empty module list (in particular a
slide heading followed by no module heading); (b) any leading lines with no
slide heading among them are discarded without effect (in particular a module
heading with no open slide is skipped); (c) a concrete malformed document
exercising all three edge cases parses as described. -/
theorem c9_parser_permissiveness :
    (∀ lines : List PyStr, (∀ l ∈ lines, isModuleHeading l = false) →
      ∀ s ∈ parseMarkdownLines lines, s.modules = []) ∧
    (∀ pre rest : List PyStr, (∀ l ∈ pre, isSlideHeading l = false) →
      parseMarkdownLines (pre ++ rest) = parseMarkdownLines rest) ∧
    parseMarkdown ("junk\n## orphan\n# T\nhello".data) =
      [⟨"T".data, "hello".data, []⟩] := by
  refine ⟨?_, ?_, by decide⟩
  · intro lines h s hs
    exact parseLoopF_no_modules _ _ none h (fun s0 e => by cases e) s hs
  · intro pre rest h
    unfold parseMarkdownLines
    exact parseLoopF_skip_leading pre _ rest (Nat.lt_succ_self _) h

theorem findStars_eq : ∀ (l p s : List Char), findStars l = some (p, s) →
    l = p ++ '*' :: '*' :: s := by
  intro l
  induction l with
  | nil => intro p s h; simp [findStars] at h
  | cons c rest ih =>
    intro p s h
    cases rest with
    | nil => simp [findStars] at h
    | cons c2 rest2 =>
      by_cases hc : c = '*' ∧ c2 = '*'
      · rw [findStars, if_pos hc] at h
        simp only [Option.some.injEq, Prod.mk.injEq] at h
        obtain ⟨hp, hs⟩ := h
        subst hp
        subst hs
        simp [hc.1, hc.2]
      · rw [findStars, if_neg hc] at h
        cases hfind : findStars (c2 :: rest2) with
        | none => rw [hfind] at h; simp at h
        | some ps =>
          obtain ⟨p0, s0⟩ := ps
          rw [hfind] at h
          simp only [Option.some.injEq, Prod.mk.injEq] at h
          obtain ⟨hp, hs⟩ := h
          subst hs
          subst hp
          have hrec := ih p0 s0 hfind
          simp [hrec]

theorem reSplitAux_flatten : ∀ (fuel : ℕ) (l : List Char),
    (reSplitAux fuel l).flatten = l := by
  intro fuel
  induction fuel with
  | zero => intro l; simp [reSplitAux]
  | succ fuel ih =>
    intro l
    cases h1 : findStars l with
    | none => simp [reSplitAux, h1]
    | some pr =>
      obtain ⟨pre, rest⟩ := pr
      cases h2 : findStars rest with
      | none => simp [reSplitAux, h1, h2]
      | some ms =>
        obtain ⟨mid, rest2⟩ := ms
        have e1 := findStars_eq l pre rest h1
        have e2 := findStars_eq rest mid rest2 h2
        simp only [reSplitAux, h1, h2, List.flatten_cons]
        rw [ih rest2, e1, e2]
        simp

theorem dropLastTwoConcat (xs : List Char) :
    ((xs ++ ['*', '*']).dropLast).dropLast = xs := by
  rw [show xs ++ ['*', '*'] = (xs ++ ['*']) ++ ['*'] by simp]
  rw [List.dropLast_concat, List.dropLast_concat]

theorem spanOfPartMatch (mid : List Char) :
    spanOfPart ('*' :: '*' :: (mid ++ ['*', '*'])) = some ⟨mid, true⟩ := by
  have hrev : ('*' :: '*' :: (mid ++ ['*', '*'])).reverse
      = '*' :: '*' :: (mid.reverse ++ ['*', '*']) := by
    simp [List.reverse_append]
  have hflag : boldFlag ('*' :: '*' :: (mid ++ ['*', '*'])) = true := by
    rw [boldFlag, hrev]
    simp [startsStars]
  rw [spanOfPart, if_pos hflag]
  simp [dropLastTwoConcat]

theorem spanOfPartNil : spanOfPart [] = none := by decide

theorem spanOfPartPlain {p : List Char} (h1 : boldFlag p = false) (h2 : p ≠ []) :
    spanOfPart p = some ⟨p, false⟩ := by
  rw [spanOfPart, if_neg (by simp [h1]), if_pos h2]

theorem spansTextNil : spansText [] = [] := rfl

theorem spansTextCons (sp : TextSpan) (rest : List TextSpan) :
    spansText (sp :: rest) = sp.text ++ spansText rest := by
  simp [spansText]

theorem formatPartsSpec : ∀ (fuel : ℕ) (l : List Char),
    (∀ p ∈ plainPartsAux fuel l, boldFlag p = false) →
    spansText ((reSplitAux fuel l).filterMap spanOfPart) = stripBoldAux fuel l ∧
    ((reSplitAux fuel l).filterMap spanOfPart).filter (fun sp => sp.bold)
      = (boldPartsAux fuel l).map (fun mid => ⟨mid, true⟩) := by
  intro fuel
  induction fuel with
  | zero =>
    intro l h
    have hl := h l (by simp [plainPartsAux])
    simp only [reSplitAux, stripBoldAux, boldPartsAux]
    by_cases he : l = []
    · subst he
      simp [spanOfPartNil, spansTextNil]
    · simp [spanOfPartPlain hl he, spansTextCons, spansTextNil]
  | succ fuel ih =>
    intro l h
    cases h1 : findStars l with
    | none =>
      have hl := h l (by simp [plainPartsAux, h1])
      simp only [reSplitAux, stripBoldAux, boldPartsAux, h1]
      by_cases he : l = []
      · subst he
        simp [spanOfPartNil, spansTextNil]
      · simp [spanOfPartPlain hl he, spansTextCons, spansTextNil]
    | some pr =>
      obtain ⟨pre, rest⟩ := pr
      cases h2 : findStars rest with
      | none =>
        have hl := h l (by simp [plainPartsAux, h1, h2])
        simp only [reSplitAux, stripBoldAux, boldPartsAux, h1, h2]
        by_cases he : l = []
        · subst he
          simp [spanOfPartNil, spansTextNil]
        · simp [spanOfPartPlain hl he, spansTextCons, spansTextNil]
      | some ms =>
        obtain ⟨mid, rest2⟩ := ms
        have hpre : boldFlag pre = false := h pre (by simp [plainPartsAux, h1, h2])
        have hrec : ∀ p ∈ plainPartsAux fuel rest2, boldFlag p = false := by
          intro p hp
          exact h p (by simp [plainPartsAux, h1, h2, hp])
        obtain ⟨ihA, ihB⟩ := ih rest2 hrec
        simp only [reSplitAux, stripBoldAux, boldPartsAux, h1, h2]
        by_cases he : pre = []
        · subst he
          constructor
          · simp [List.filterMap_cons, spanOfPartNil, spanOfPartMatch, spansTextCons, ihA]
          · simp [List.filterMap_cons, spanOfPartNil, spanOfPartMatch, List.filter_cons, ihB]
        · constructor
          · simp [List.filterMap_cons, spanOfPartPlain hpre he, spanOfPartMatch,
              spansTextCons, ihA]
          · simp [List.filterMap_cons, spanOfPartPlain hpre he, spanOfPartMatch,
              List.filter_cons, hpre, ihB]

/-- C3 (amended): for every line in which no non-matched residue of the
split itself both starts and ends with a double star (the well-formed case),
the spans concatenated in order equal the line with the markers of the
matched bold pairs removed, and the bold spans are exactly the bracketed
contents of the matches in order (one span per match, markers stripped;
empty residues add no span).  The original claim fails on degenerate lines
such as a bare double star, which the formatter wrongly treats as a bold
pair. -/
theorem c3_bold_spans_amended (line : List Char)
    (h : ∀ p ∈ residueParts line, boldFlag p = false) :
    spansText (formatLine line) = stripBoldMarkers line ∧
    (formatLine line).filter (fun sp => sp.bold)
      = (boldContents line).map (fun mid => ⟨mid, true⟩) :=
  formatPartsSpec (line.length + 1) line h

/-- C3 counterexample: the two-character line of a bare double star contains
no well-formed bold pair (no match, the stripped line is the line itself),
yet the formatter emits one bold span with empty text, so the concatenated
span text (empty) differs from the line with its zero matched pairs removed
(the line itself). -/
theorem c3_bold_spans_cex :
    formatLine ("**".data) = [⟨[], true⟩] ∧
    boldContents ("**".data) = [] ∧
    stripBoldMarkers ("**".data) = "**".data ∧
    spansText (formatLine ("**".data)) ≠ stripBoldMarkers ("**".data) :=
  ⟨by decide, by decide, by decide, by decide⟩

/-- C3 witness at a concrete well-formed line with one bold pair. -/
theorem c3_bold_spans_witness :
    spansText (formatLine ("a**b**c".data)) = stripBoldMarkers ("a**b**c".data) ∧
    (formatLine ("a**b**c".data)).filter (fun sp => sp.bold)
      = (boldContents ("a**b**c".data)).map (fun mid => ⟨mid, true⟩) :=
  c3_bold_spans_amended _ (by decide)

theorem leftShapesGet : ∀ (ms : List ModuleRecord) (y : ℚ) (k : ℕ)
    (e : ModuleRecord × LayoutBox × LayoutBox),
    (leftModuleShapes y ms).get? k = some e →
    e.2.1 = ⟨1, y + k * (51/10), 6, 0.8⟩ ∧
    e.2.2 = ⟨1, y + k * (51/10) + 0.8, 14.5, 4.2⟩ := by
  intro ms
  induction ms with
  | nil => intro y k e h; simp [leftModuleShapes] at h
  | cons m rest ih =>
    intro y k e h
    cases k with
    | zero =>
      simp [leftModuleShapes] at h
      rw [← h]
      norm_num
    | succ k =>
      simp only [leftModuleShapes, List.get?_cons_succ] at h
      have hr := ih (y + (4.8 + 0.3)) k e h
      have harith : y + (4.8 + 0.3) + (k : ℚ) * (51/10) = y + ((k + 1 : ℕ) : ℚ) * (51/10) := by
        push_cast
        ring_nf
      refine ⟨?_, ?_⟩
      · rw [hr.1, harith]
      · rw [hr.2, harith]

theorem rightShapesGet : ∀ (ms : List ModuleRecord) (y : ℚ) (k : ℕ)
    (e : ModuleRecord × LayoutBox × LayoutBox),
    (rightModuleShapes y ms).get? k = some e →
    e.2.1 = ⟨16, y + k * (71/10), 6, 0.8⟩ ∧
    e.2.2 = ⟨16, y + k * (71/10) + 0.8, 14.5, 6.0⟩ := by
  intro ms
  induction ms with
  | nil => intro y k e h; simp [rightModuleShapes] at h
  | cons m rest ih =>
    intro y k e h
    cases k with
    | zero =>
      simp [rightModuleShapes] at h
      rw [← h]
      norm_num
    | succ k =>
      simp only [rightModuleShapes, List.get?_cons_succ] at h
      have hr := ih (y + (6.8 + 0.3)) k e h
      have harith : y + (6.8 + 0.3) + (k : ℚ) * (71/10) = y + ((k + 1 : ℕ) : ℚ) * (71/10) := by
        push_cast
        ring_nf
      refine ⟨?_, ?_⟩
      · rw [hr.1, harith]
      · rw [hr.2, harith]

/-- C6 (amended): in the fixed-height layout, the RIGHT column cursor
advances by exactly title height (0.8) plus its content height (6.0) plus
the gap (0.3), that is 7.1 cm, as the claim states; the LEFT column cursor
advances by 5.1 cm per module (0.8 + 4.0 + 0.3, the source increment), which
is 0.2 cm LESS than its title height plus its actual content-rectangle
height (4.2) plus the gap, 5.3 cm — for the left column the original claim
fails. -/
theorem c6_cursor_advance_amended :
    (∀ (ms : List ModuleRecord) (k : ℕ) (e1 e2 : ModuleRecord × LayoutBox × LayoutBox),
      (leftModuleShapes 3 ms).get? k = some e1 →
      (leftModuleShapes 3 ms).get? (k + 1) = some e2 →
      e2.2.1.top = e1.2.1.top + 51/10 ∧
      e1.2.1.height + e1.2.2.height + 3/10 = 53/10 ∧ (51 : ℚ)/10 ≠ 53/10) ∧
    (∀ (ms : List ModuleRecord) (k : ℕ) (e1 e2 : ModuleRecord × LayoutBox × LayoutBox),
      (rightModuleShapes 3 ms).get? k = some e1 →
      (rightModuleShapes 3 ms).get? (k + 1) = some e2 →
      e2.2.1.top = e1.2.1.top + 71/10 ∧
      e1.2.1.height + e1.2.2.height + 3/10 = 71/10) := by
  constructor
  · intro ms k e1 e2 h1 h2
    have g1 := leftShapesGet ms 3 k e1 h1
    have g2 := leftShapesGet ms 3 (k + 1) e2 h2
    rw [g1.1, g1.2, g2.1]
    refine ⟨?_, by norm_num, by norm_num⟩
    push_cast
    ring
  · intro ms k e1 e2 h1 h2
    have g1 := rightShapesGet ms 3 k e1 h1
    have g2 := rightShapesGet ms 3 (k + 1) e2 h2
    rw [g1.1, g1.2, g2.1]
    refine ⟨?_, by norm_num⟩
    push_cast
    ring

/-- C6 counterexample: the left column places a 0.8 high title box and a
4.2 high content box for the first module at vertical offset 3, but places
the second module at 3 + (4.8 + 0.3), which is NOT 3 plus the title height
plus the content height plus the gap (3 + (0.8 + 4.2 + 0.3)). -/
theorem c6_cursor_advance_cex :
    leftModuleShapes 3 [⟨"a".data, "x".data⟩, ⟨"b".data, "y".data⟩] =
      [(⟨"a".data, "x".data⟩, ⟨1, 3, 6, 0.8⟩, ⟨1, 3 + 0.8, 14.5, 4.2⟩),
       (⟨"b".data, "y".data⟩, ⟨1, 3 + (4.8 + 0.3), 6, 0.8⟩,
        ⟨1, 3 + (4.8 + 0.3) + 0.8, 14.5, 4.2⟩)] ∧
    (3 : ℚ) + (4.8 + 0.3) ≠ 3 + (0.8 + 4.2 + 0.3) := by
  exact ⟨rfl, by norm_num⟩

/-- C7: whenever a slide has more than five modules, the layout renders
exactly the first five — the first three in the left column (title boxes at
x = 1) and the next two in the right column (title boxes at x = 16) — and
the modules beyond the fifth produce no shapes. -/
theorem c7_module_truncation (ms : List ModuleRecord) (h : 5 < ms.length) :
    (slideModuleShapes ms).map (fun e => e.1) = ms.take 5 ∧
    (slideModuleShapes ms).length = 5 ∧
    ((slideModuleShapes ms).take 3).map (fun e => e.2.1.left) = [1, 1, 1] ∧
    ((slideModuleShapes ms).drop 3).map (fun e => e.2.1.left) = [16, 16] := by
  rcases ms with _ | ⟨m1, _ | ⟨m2, _ | ⟨m3, _ | ⟨m4, _ | ⟨m5, rest⟩⟩⟩⟩⟩ <;>
    simp_all [slideModuleShapes, leftModuleShapes, rightModuleShapes]

/-- C7 witness: a concrete document with seven modules parses to a record
keeping all seven, and the layout of those seven modules renders exactly the
first five. -/
theorem c7_module_truncation_witness :
    parseMarkdown ("# T\n## M1\nc1\n## M2\nc2\n## M3\nc3\n## M4\nc4\n## M5\nc5\n## M6\nc6\n## M7\nc7".data) =
      [⟨"T".data, [],
        [⟨"M1".data, "c1".data⟩, ⟨"M2".data, "c2".data⟩, ⟨"M3".data, "c3".data⟩,
         ⟨"M4".data, "c4".data⟩, ⟨"M5".data, "c5".data⟩, ⟨"M6".data, "c6".data⟩,
         ⟨"M7".data, "c7".data⟩]⟩] ∧
    (slideModuleShapes
        [⟨"M1".data, "c1".data⟩, ⟨"M2".data, "c2".data⟩, ⟨"M3".data, "c3".data⟩,
         ⟨"M4".data, "c4".data⟩, ⟨"M5".data, "c5".data⟩, ⟨"M6".data, "c6".data⟩,
         ⟨"M7".data, "c7".data⟩]).map (fun e => e.1) =
      ([⟨"M1".data, "c1".data⟩, ⟨"M2".data, "c2".data⟩, ⟨"M3".data, "c3".data⟩,
        ⟨"M4".data, "c4".data⟩, ⟨"M5".data, "c5".data⟩, ⟨"M6".data, "c6".data⟩,
        ⟨"M7".data, "c7".data⟩] : List ModuleRecord).take 5 ∧
    (slideModuleShapes
        [⟨"M1".data, "c1".data⟩, ⟨"M2".data, "c2".data⟩, ⟨"M3".data, "c3".data⟩,
         ⟨"M4".data, "c4".data⟩, ⟨"M5".data, "c5".data⟩, ⟨"M6".data, "c6".data⟩,
         ⟨"M7".data, "c7".data⟩]).length = 5 :=
  have h := c7_module_truncation
    [⟨"M1".data, "c1".data⟩, ⟨"M2".data, "c2".data⟩, ⟨"M3".data, "c3".data⟩,
     ⟨"M4".data, "c4".data⟩, ⟨"M5".data, "c5".data⟩, ⟨"M6".data, "c6".data⟩,
     ⟨"M7".data, "c7".data⟩] (by decide)
  ⟨by decide, h.1, h.2.1⟩

theorem tryEncodingsTotal (ext : ExternalCodecs) (bs : List ℕ) :
    ∃ s, tryEncodings ext fallbackEncodings bs = some s := by
  rw [fallbackEncodings]
  simp only [tryEncodings, decodeWith]
  cases utf8Decode bs with
  | some s => exact ⟨s, rfl⟩
  | none =>
    cases ext.gbk bs with
    | some s => exact ⟨s, rfl⟩
    | none =>
      cases ext.gb2312 bs with
      | some s => exact ⟨s, rfl⟩
      | none =>
        cases ext.cp936 bs with
        | some s => exact ⟨s, rfl⟩
        | none => exact ⟨latin1Decode bs, rfl⟩

/-- C8 (amended): whatever the four abstract table codecs and the detection
result do, reading a present file never fails: the fallback chain (UTF-8,
GBK, GB2312, CP936, Latin-1, CP1252, in source order) always succeeds at or
before Latin-1, which decodes every byte sequence, so no decoding error ever
reaches the caller; only an unreadable file is a fatal error.  The original
claim errs on the last resort: the source last resort decodes UTF-8
IGNORING (dropping) undecodable bytes, not replacing them (and it is
unreachable through decoding failures, since Latin-1 is total). -/
theorem c8_encoding_chain_amended (ext : ExternalCodecs)
    (detected : Option ((List ℕ → Option PyStr) × ℚ)) (bs : List ℕ) :
    (∃ s : PyStr, safeReadFile ext detected (some bs) = Except.ok s) ∧
    safeReadFile ext detected none = Except.error ("cannot read file".data) := by
  refine ⟨?_, rfl⟩
  obtain ⟨s0, hs0⟩ := tryEncodingsTotal ext bs
  show ∃ s, (match
      (match detected with
        | some dc => if dc.2 > 7/10 then dc.1 bs else none
        | none => none : Option PyStr) with
    | some s => Except.ok s
    | none =>
      match tryEncodings ext fallbackEncodings bs with
      | some s => Except.ok s
      | none => Except.ok (utf8DecodeIgnore bs)) = Except.ok s
  cases detected with
  | none => exact ⟨s0, by simp [hs0]⟩
  | some dc =>
    by_cases hc : dc.2 > 7/10
    · cases hd : dc.1 bs with
      | some s => exact ⟨s, by simp [hc, hd]⟩
      | none => exact ⟨s0, by simp [hc, hd, hs0]⟩
    · exact ⟨s0, by simp [hc, hs0]⟩

/-- C8 counterexample: on the single undecodable byte 255 the last-resort
decoder of the source (UTF-8 with the ignore handler) yields the empty
string, dropping the byte; the behaviour the claim describes (replacing
undecodable bytes) yields the replacement character instead — and the chain
itself never reaches the last resort, because Latin-1 already decodes the
byte. -/
theorem c8_last_resort_cex :
    utf8DecodeIgnore [255] = [] ∧
    specUtf8Replace [255] = [replacementChar] ∧
    utf8DecodeIgnore [255] ≠ specUtf8Replace [255] ∧
    safeReadFile ⟨fun _ => none, fun _ => none, fun _ => none, fun _ => none⟩ none (some [255])
      = Except.ok (latin1Decode [255]) :=
  ⟨rfl, rfl, by decide, rfl⟩

/-- C1 counterexample: on three concrete regions one application of the
region merger emits two regions (the second grown by a same-row chain), and
a second application merges those two (they lie on a same row and are
horizontally close), so the merger applied to its own output differs from
the output and the claimed invariant fails. -/
theorem c1_merge_idempotence_cex :
    mergeOverlappingRegions
        (mergeOverlappingRegions
          [⟨0, 0, 10, 10⟩, ⟨30, 50, 60, 60⟩, ⟨150, 0, 160, 100⟩] (3/10)) (3/10)
      ≠ mergeOverlappingRegions
          [⟨0, 0, 10, 10⟩, ⟨30, 50, 60, 60⟩, ⟨150, 0, 160, 100⟩] (3/10) := by
  have e1 : mergeOverlappingRegions
      [⟨0, 0, 10, 10⟩, ⟨30, 50, 60, 60⟩, ⟨150, 0, 160, 100⟩] (3/10)
      = [⟨0, 0, 10, 10⟩, ⟨30, 0, 160, 100⟩] := by
    norm_num [mergeOverlappingRegions, outerFor, growLoop, innerFor, shouldMerge,
      calculateOverlap, isSameRow, isHorizontallyClose, rectUnion, List.enum, List.enumFrom]
  have e2 : mergeOverlappingRegions [⟨0, 0, 10, 10⟩, ⟨30, 0, 160, 100⟩] (3/10)
      = [⟨0, 0, 160, 100⟩] := by
    norm_num [mergeOverlappingRegions, outerFor, growLoop, innerFor, shouldMerge,
      calculateOverlap, isSameRow, isHorizontallyClose, rectUnion, List.enum, List.enumFrom]
  rw [e1, e2]
  exact fun h => by simpa using congrArg List.length h

/-- C2 counterexample: three drawings whose centers lie 40 apart in a row
form a chain under the threshold 50 (successive center distances below the
threshold), yet the first and the third end up in different groups: the
scan only compares candidates against the SEED of the group, so the chain
through the middle drawing is not followed. -/
theorem c2_cluster_transitivity_cex :
    centerWithin ⟨-5, -5, 5, 5⟩ ⟨35, -5, 45, 5⟩ 50 ∧
    centerWithin ⟨35, -5, 45, 5⟩ ⟨75, -5, 85, 5⟩ 50 ∧
    clusterDrawings [⟨-5, -5, 5, 5⟩, ⟨35, -5, 45, 5⟩, ⟨75, -5, 85, 5⟩] 50 =
      [[⟨-5, -5, 5, 5⟩, ⟨35, -5, 45, 5⟩], [⟨75, -5, 85, 5⟩]] ∧
    (⟨75, -5, 85, 5⟩ : Rect) ∉ ([⟨-5, -5, 5, 5⟩, ⟨35, -5, 45, 5⟩] : List Rect) := by
  refine ⟨by norm_num [centerWithin, centerDistSq],
    by norm_num [centerWithin, centerDistSq], ?_, ?_⟩
  · norm_num [clusterDrawings, clusterOuter, clusterInner, centerWithin, centerDistSq,
      List.enum, List.enumFrom]
  · norm_num [List.mem_cons, Rect.mk.injEq]

theorem clusterInnerMem (thr : ℚ) (i : ℕ) (seed : Rect) :
    ∀ (rest : List (ℕ × Rect)) (used : List ℕ) (q : ℕ × Rect),
    q ∈ (clusterInner thr i seed rest used).1 →
    centerWithin seed q.2 thr ∧ q ∈ rest := by
  intro rest
  induction rest with
  | nil => intro used q hq; simp [clusterInner] at hq
  | cons p rest ih =>
    intro used q hq
    simp only [clusterInner] at hq
    by_cases h1 : p.1 ∈ used ∨ i = p.1
    · rw [if_pos h1] at hq
      have h := ih used q hq
      exact ⟨h.1, by simp [h.2]⟩
    · rw [if_neg h1] at hq
      by_cases h2 : centerWithin seed p.2 thr
      · rw [if_pos h2] at hq
        rcases List.mem_cons.mp hq with he | hq2
        · subst he
          exact ⟨h2, by simp⟩
        · have h := ih _ q hq2
          exact ⟨h.1, by simp [h.2]⟩
      · rw [if_neg h2] at hq
        have h := ih used q hq
        exact ⟨h.1, by simp [h.2]⟩

theorem clusterOuterShape (thr : ℚ) (pairs : List (ℕ × Rect)) :
    ∀ (todo : List (ℕ × Rect)) (used : List ℕ) (g : List (ℕ × Rect)),
    g ∈ clusterOuter thr pairs todo used →
    ∃ p t, g = p :: t ∧ ∀ q ∈ t, centerWithin p.2 q.2 thr ∧ q ∈ pairs := by
  intro todo
  induction todo with
  | nil => intro used g hg; simp [clusterOuter] at hg
  | cons p rest ih =>
    intro used g hg
    simp only [clusterOuter] at hg
    by_cases h1 : p.1 ∈ used
    · rw [if_pos h1] at hg
      exact ih used g hg
    · rw [if_neg h1] at hg
      simp only [List.length_cons, Nat.zero_lt_succ, if_pos, gt_iff_lt] at hg
      rcases List.mem_cons.mp hg with he | hg2
      · exact ⟨p, _, he, fun q hq => clusterInnerMem thr p.1 p.2 pairs _ q hq⟩
      · exact ih _ g hg2

/-- C2 (amended): clustering is seed-based, not transitive: every group
consists of a seed drawing followed by exactly those drawings whose
bounding-box center lies within the threshold of the SEED center (chains
through intermediate members are not followed, see the counterexample); and
each group emits one Region — its union bounding box — exactly when that
box has width and height both above 50. -/
theorem c2_cluster_seed_based (drawings : List Rect) (thr : ℚ) :
    (∀ g ∈ clusterDrawings drawings thr,
      ∃ s t, g = s :: t ∧ ∀ d ∈ t, centerWithin s d thr) ∧
    (∀ r ∈ drawingRegions drawings,
      r.x1 - r.x0 > 50 ∧ r.y1 - r.y0 > 50 ∧
      ∃ g ∈ clusterDrawings drawings 50,
        r = ⟨listMinQ (g.map Rect.x0), listMinQ (g.map Rect.y0),
             listMaxQ (g.map Rect.x1), listMaxQ (g.map Rect.y1)⟩) := by
  constructor
  · intro g hg
    rw [clusterDrawings] at hg
    by_cases he : drawings.isEmpty
    · rw [if_pos he] at hg
      simp at hg
    · rw [if_neg he] at hg
      obtain ⟨g0, hg0, rfl⟩ := List.mem_map.mp hg
      obtain ⟨p, t, rfl, ht⟩ := clusterOuterShape thr drawings.enum drawings.enum [] g0 hg0
      refine ⟨p.2, t.map Prod.snd, by simp, ?_⟩
      intro d hd
      obtain ⟨q, hq, rfl⟩ := List.mem_map.mp hd
      exact (ht q hq).1
  · intro r hr
    rw [drawingRegions] at hr
    obtain ⟨g, hg, hsome⟩ := List.mem_filterMap.mp hr
    rw [drawingGroupRegion] at hsome
    by_cases hc : listMaxQ (g.map Rect.x1) - listMinQ (g.map Rect.x0) > 50 ∧
        listMaxQ (g.map Rect.y1) - listMinQ (g.map Rect.y0) > 50
    · rw [if_pos hc] at hsome
      obtain rfl := Option.some.injEq _ _ ▸ hsome.symm
      exact ⟨by simpa using hc.1, by simpa using hc.2, g, hg, rfl⟩
    · rw [if_neg hc] at hsome
      exact absurd hsome (by simp)

theorem innerForNoMerge (thr : ℚ) (i : ℕ) :
    ∀ (rest : List (ℕ × Rect)) (cur : Rect) (used : List ℕ),
    (∀ p ∈ rest, p.1 ∉ used → i ≠ p.1 → ¬ shouldMerge thr cur p.2) →
    innerFor thr i rest cur used = (cur, used, false) := by
  intro rest
  induction rest with
  | nil => intro cur used _; rfl
  | cons p rest ih =>
    intro cur used h
    simp only [innerFor]
    by_cases h1 : p.1 ∈ used ∨ i = p.1
    · rw [if_pos h1]
      exact ih cur used fun q hq => h q (by simp [hq])
    · rw [if_neg h1]
      push_neg at h1
      rw [if_neg (h p (by simp) h1.1 h1.2)]
      exact ih cur used fun q hq => h q (by simp [hq])

theorem growLoopNoMerge (thr : ℚ) (i : ℕ) (pairs : List (ℕ × Rect))
    (cur : Rect) (used : List ℕ)
    (h : ∀ p ∈ pairs, p.1 ∉ used → i ≠ p.1 → ¬ shouldMerge thr cur p.2) :
    ∀ fuel, growLoop thr i pairs fuel cur used = (cur, used) := by
  intro fuel
  cases fuel with
  | zero => rfl
  | succ fuel =>
    simp only [growLoop, innerForNoMerge thr i pairs cur used h]
    simp

theorem outerForNoMerge (thr : ℚ) (pairs : List (ℕ × Rect))
    (hglob : ∀ p q, p ∈ pairs → q ∈ pairs → p.1 ≠ q.1 → ¬ shouldMerge thr p.2 q.2) :
    ∀ (todo : List (ℕ × Rect)) (used : List ℕ),
    (∀ p ∈ todo, p ∈ pairs) →
    (∀ p ∈ todo, p.1 ∉ used) →
    (todo.map Prod.fst).Nodup →
    outerFor thr pairs todo used = todo.map Prod.snd := by
  intro todo
  induction todo with
  | nil => intro used _ _ _; rfl
  | cons p rest ih =>
    intro used hmem hused hnd
    simp only [outerFor]
    rw [if_neg (hused p (by simp))]
    have hgrow : growLoop thr p.1 pairs pairs.length p.2 (p.1 :: used) = (p.2, p.1 :: used) :=
      growLoopNoMerge thr p.1 pairs p.2 (p.1 :: used)
        (fun q hq _ hne => hglob p q (hmem p (by simp)) hq hne) pairs.length
    rw [hgrow]
    simp only [List.map_cons, List.cons.injEq]
    refine ⟨trivial, ?_⟩
    simp only [List.map_cons, List.nodup_cons] at hnd
    refine ih (p.1 :: used) (fun q hq => hmem q (by simp [hq])) ?_ hnd.2
    intro q hq
    simp only [List.mem_cons, not_or]
    exact ⟨fun he => hnd.1 (he ▸ List.mem_map_of_mem Prod.fst hq),
      hused q (by simp [hq])⟩

/-- C1 (amended): the region merger is the identity — hence idempotent — on
every list in which no ordered pair of distinct regions satisfies the merge
condition (overlap ratio above the threshold, or same row and horizontally
close); the original unconditional idempotence claim fails, because one pass
can emit two regions that themselves satisfy the merge condition (see the
counterexample, where a same-row chain grows a later region into merge range
of an earlier one). -/
theorem c1_merge_fixed_point_amended (thr : ℚ) (regions : List Rect)
    (h : List.Pairwise (fun a b => ¬ shouldMerge thr a b ∧ ¬ shouldMerge thr b a) regions) :
    mergeOverlappingRegions regions thr = regions ∧
    mergeOverlappingRegions (mergeOverlappingRegions regions thr) thr
      = mergeOverlappingRegions regions thr := by
  have main : mergeOverlappingRegions regions thr = regions := by
    rw [mergeOverlappingRegions]
    by_cases he : regions.isEmpty
    · rw [if_pos he]
      exact (List.isEmpty_iff.mp he).symm
    · rw [if_neg he]
      have hpg := List.pairwise_iff_get.mp h
      have hglob : ∀ p q, p ∈ regions.enum → q ∈ regions.enum → p.1 ≠ q.1 →
          ¬ shouldMerge thr p.2 q.2 := by
        intro p q hp hq hne
        have hp2 := List.mem_enum_iff_get?.mp hp
        have hq2 := List.mem_enum_iff_get?.mp hq
        rw [List.get?_eq_some] at hp2 hq2
        obtain ⟨hpl, hpe⟩ := hp2
        obtain ⟨hql, hqe⟩ := hq2
        rcases Nat.lt_or_ge p.1 q.1 with hlt | hge
        · have := hpg ⟨p.1, hpl⟩ ⟨q.1, hql⟩ hlt
          rw [hpe, hqe] at this
          exact this.1
        · have hlt2 : q.1 < p.1 := Nat.lt_of_le_of_ne hge (fun e => hne e.symm)
          have := hpg ⟨q.1, hql⟩ ⟨p.1, hpl⟩ hlt2
          rw [hpe, hqe] at this
          exact this.2
      rw [outerForNoMerge thr regions.enum hglob regions.enum []
        (fun p hp => hp) (by simp)
        (by rw [List.enum_map_fst]; exact List.nodup_range _)]
      exact List.enum_map_snd regions
  exact ⟨main, by rw [main, main]⟩

/-- C1 witness: two far-apart regions satisfy the no-merge condition
pairwise, and the merger leaves them unchanged under a second application. -/
theorem c1_merge_fixed_point_witness :
    mergeOverlappingRegions [⟨0, 0, 10, 10⟩, ⟨100, 100, 110, 110⟩] (3/10)
      = [⟨0, 0, 10, 10⟩, ⟨100, 100, 110, 110⟩] ∧
    mergeOverlappingRegions
        (mergeOverlappingRegions [⟨0, 0, 10, 10⟩, ⟨100, 100, 110, 110⟩] (3/10)) (3/10)
      = mergeOverlappingRegions [⟨0, 0, 10, 10⟩, ⟨100, 100, 110, 110⟩] (3/10) :=
  c1_merge_fixed_point_amended (3/10) [⟨0, 0, 10, 10⟩, ⟨100, 100, 110, 110⟩]
    (by
      refine List.pairwise_cons.mpr ⟨?_, List.pairwise_singleton _ _⟩
      intro b hb
      rw [List.mem_singleton] at hb
      subst hb
      constructor <;>
        norm_num [shouldMerge, calculateOverlap, isSameRow, isHorizontallyClose])

theorem rectEq {a b : Rect} (h0 : a.x0 = b.x0) (h1 : a.y0 = b.y0)
    (h2 : a.x1 = b.x1) (h3 : a.y1 = b.y1) : a = b := by
  cases a
  cases b
  simp_all

theorem rectContainsUnionLeft (a b : Rect) : rectContains (rectUnion a b) a :=
  ⟨min_le_left _ _, min_le_left _ _, le_max_left _ _, le_max_left _ _⟩

theorem rectContainsUnionRight (a b : Rect) : rectContains (rectUnion a b) b :=
  ⟨min_le_right _ _, min_le_right _ _, le_max_right _ _, le_max_right _ _⟩

theorem rectContainsTrans {a b c : Rect} (h1 : rectContains a b) (h2 : rectContains b c) :
    rectContains a c :=
  ⟨le_trans h1.1 h2.1, le_trans h1.2.1 h2.2.1,
   le_trans h2.2.2.1 h1.2.2.1, le_trans h2.2.2.2 h1.2.2.2⟩

theorem foldlUnionContains : ∀ (t : List Rect) (c : Rect),
    rectContains (t.foldl rectUnion c) c ∧
    ∀ r ∈ t, rectContains (t.foldl rectUnion c) r := by
  intro t
  induction t with
  | nil =>
    intro c
    exact ⟨⟨le_refl _, le_refl _, le_refl _, le_refl _⟩, by simp⟩
  | cons a t ih =>
    intro c
    simp only [List.foldl_cons]
    have h := ih (rectUnion c a)
    refine ⟨rectContainsTrans h.1 (rectContainsUnionLeft c a), ?_⟩
    intro r hr
    rcases List.mem_cons.mp hr with he | hr2
    · subst he
      exact rectContainsTrans h.1 (rectContainsUnionRight c r)
    · exact h.2 r hr2

theorem bboxContains (p : List Rect) : ∀ r ∈ p, rectContains (bboxList p) r := by
  intro r hr
  cases p with
  | nil => simp at hr
  | cons x t =>
    rw [bboxList]
    rcases List.mem_cons.mp hr with he | hr2
    · subst he
      exact (foldlUnionContains t r).1
    · exact (foldlUnionContains t x).2 r hr2

theorem bboxListConcat : ∀ (xs : List Rect) (r : Rect), xs ≠ [] →
    bboxList (xs ++ [r]) = rectUnion (bboxList xs) r := by
  intro xs r h
  cases xs with
  | nil => exact absurd rfl h
  | cons x t => simp [bboxList, List.foldl_append]

theorem lengthLeFlatten : ∀ (parts : List (List Rect)), (∀ p ∈ parts, p ≠ []) →
    parts.length ≤ parts.flatten.length := by
  intro parts
  induction parts with
  | nil => simp
  | cons p rest ih =>
    intro h
    simp only [List.length_cons, List.flatten_cons, List.length_append]
    have hp : p ≠ [] := h p (by simp)
    have h1 : 1 ≤ p.length :=
      Nat.one_le_iff_ne_zero.mpr (fun e => hp (List.length_eq_zero.mp e))
    have h2 := ih (fun q hq => h q (by simp [hq]))
    omega

theorem bboxFoldX0 : ∀ (t : List Rect) (c : Rect),
    (t.foldl rectUnion c).x0 = (t.map Rect.x0).foldl min c.x0 := by
  intro t
  induction t with
  | nil => intro c; rfl
  | cons a t ih => intro c; simp [List.foldl_cons, ih, rectUnion]

theorem bboxFoldY0 : ∀ (t : List Rect) (c : Rect),
    (t.foldl rectUnion c).y0 = (t.map Rect.y0).foldl min c.y0 := by
  intro t
  induction t with
  | nil => intro c; rfl
  | cons a t ih => intro c; simp [List.foldl_cons, ih, rectUnion]

theorem bboxFoldX1 : ∀ (t : List Rect) (c : Rect),
    (t.foldl rectUnion c).x1 = (t.map Rect.x1).foldl max c.x1 := by
  intro t
  induction t with
  | nil => intro c; rfl
  | cons a t ih => intro c; simp [List.foldl_cons, ih, rectUnion]

theorem bboxFoldY1 : ∀ (t : List Rect) (c : Rect),
    (t.foldl rectUnion c).y1 = (t.map Rect.y1).foldl max c.y1 := by
  intro t
  induction t with
  | nil => intro c; rfl
  | cons a t ih => intro c; simp [List.foldl_cons, ih, rectUnion]

theorem mergeRegionsInRowEqBbox : ∀ (p : List Rect), p ≠ [] →
    mergeRegionsInRow p = bboxList p := by
  intro p hp
  match p with
  | [r] => rfl
  | r1 :: r2 :: t =>
    refine rectEq ?_ ?_ ?_ ?_
    · rw [show mergeRegionsInRow (r1 :: r2 :: t)
        = ⟨listMinQ ((r1 :: r2 :: t).map Rect.x0), listMinQ ((r1 :: r2 :: t).map Rect.y0),
           listMaxQ ((r1 :: r2 :: t).map Rect.x1), listMaxQ ((r1 :: r2 :: t).map Rect.y1)⟩
        from rfl]
      rw [bboxList, bboxFoldX0]
      rfl
    · rw [show mergeRegionsInRow (r1 :: r2 :: t)
        = ⟨listMinQ ((r1 :: r2 :: t).map Rect.x0), listMinQ ((r1 :: r2 :: t).map Rect.y0),
           listMaxQ ((r1 :: r2 :: t).map Rect.x1), listMaxQ ((r1 :: r2 :: t).map Rect.y1)⟩
        from rfl]
      rw [bboxList, bboxFoldY0]
      rfl
    · rw [show mergeRegionsInRow (r1 :: r2 :: t)
        = ⟨listMinQ ((r1 :: r2 :: t).map Rect.x0), listMinQ ((r1 :: r2 :: t).map Rect.y0),
           listMaxQ ((r1 :: r2 :: t).map Rect.x1), listMaxQ ((r1 :: r2 :: t).map Rect.y1)⟩
        from rfl]
      rw [bboxList, bboxFoldX1]
      rfl
    · rw [show mergeRegionsInRow (r1 :: r2 :: t)
        = ⟨listMinQ ((r1 :: r2 :: t).map Rect.x0), listMinQ ((r1 :: r2 :: t).map Rect.y0),
           listMaxQ ((r1 :: r2 :: t).map Rect.x1), listMaxQ ((r1 :: r2 :: t).map Rect.y1)⟩
        from rfl]
      rw [bboxList, bboxFoldY1]
      rfl

theorem msrLoopRows (rowThr gapThr : ℚ) : ∀ (rem currentRow : List Rect),
    msrLoop rowThr gapThr rem currentRow
      = (msrRows rowThr gapThr rem currentRow).map mergeRegionsInRow := by
  intro rem
  induction rem with
  | nil => intro currentRow; rfl
  | cons r rest ih =>
    intro currentRow
    simp only [msrLoop, msrRows]
    by_cases hc : isSameHorizontalLine (lastRegion currentRow) r rowThr ∧
        getHorizontalDistance (lastRegion currentRow) r ≤ gapThr
    · rw [if_pos hc, if_pos hc, ih]
    · rw [if_neg hc, if_neg hc, ih]
      rfl

theorem msrRowsFlatten (rowThr gapThr : ℚ) : ∀ (rem currentRow : List Rect),
    (msrRows rowThr gapThr rem currentRow).flatten = currentRow ++ rem := by
  intro rem
  induction rem with
  | nil => intro currentRow; simp [msrRows]
  | cons r rest ih =>
    intro currentRow
    simp only [msrRows]
    by_cases hc : isSameHorizontalLine (lastRegion currentRow) r rowThr ∧
        getHorizontalDistance (lastRegion currentRow) r ≤ gapThr
    · rw [if_pos hc, ih]
      simp
    · rw [if_neg hc]
      simp [ih]

theorem msrRowsNonempty (rowThr gapThr : ℚ) : ∀ (rem currentRow : List Rect),
    currentRow ≠ [] → ∀ p ∈ msrRows rowThr gapThr rem currentRow, p ≠ [] := by
  intro rem
  induction rem with
  | nil =>
    intro currentRow hc p hp
    simp [msrRows] at hp
    exact hp ▸ hc
  | cons r rest ih =>
    intro currentRow hc p hp
    simp only [msrRows] at hp
    by_cases hcond : isSameHorizontalLine (lastRegion currentRow) r rowThr ∧
        getHorizontalDistance (lastRegion currentRow) r ≤ gapThr
    · rw [if_pos hcond] at hp
      exact ih (currentRow ++ [r]) (by simp) p hp
    · rw [if_neg hcond] at hp
      rcases List.mem_cons.mp hp with he | hp2
      · exact he ▸ hc
      · exact ih [r] (by simp) p hp2

theorem msrPartitionExists (regions : List Rect) (rowThr gapThr : ℚ) :
    ∃ parts : List (List Rect),
      (∀ p ∈ parts, p ≠ []) ∧
      parts.flatten.Perm regions ∧
      mergeSameRowRegions regions rowThr gapThr = parts.map bboxList ∧
      (∀ p ∈ parts, ∀ r ∈ p, rectContains (bboxList p) r) ∧
      (mergeSameRowRegions regions rowThr gapThr).length ≤ regions.length := by
  by_cases he : regions.isEmpty
  · refine ⟨[], by simp, ?_, ?_, by simp, ?_⟩
    · rw [List.isEmpty_iff.mp he]
      simp
    · rw [mergeSameRowRegions, if_pos he]
      rfl
    · rw [mergeSameRowRegions, if_pos he]
      simp
  · have hperm := List.perm_insertionSort (fun a b : Rect => a.y0 ≤ b.y0) regions
    cases hs : List.insertionSort (fun a b : Rect => a.y0 ≤ b.y0) regions with
    | nil =>
      rw [hs] at hperm
      exact absurd (List.isEmpty_iff.mpr (hperm.symm.eq_nil)) he
    | cons first restSorted =>
      rw [hs] at hperm
      refine ⟨msrRows rowThr gapThr restSorted [first],
        msrRowsNonempty rowThr gapThr restSorted [first] (by simp),
        ?_, ?_, fun p _ => bboxContains p, ?_⟩
      · rw [msrRowsFlatten]
        simpa using hperm
      · rw [mergeSameRowRegions, if_neg he, hs]
        show msrLoop rowThr gapThr restSorted [first] = _
        rw [msrLoopRows]
        exact List.map_congr_left fun p hp =>
          mergeRegionsInRowEqBbox p (msrRowsNonempty rowThr gapThr restSorted [first] (by simp) p hp)
      · rw [mergeSameRowRegions, if_neg he, hs]
        show (msrLoop rowThr gapThr restSorted [first]).length ≤ _
        rw [msrLoopRows, List.length_map]
        have h1 := lengthLeFlatten (msrRows rowThr gapThr restSorted [first])
          (msrRowsNonempty rowThr gapThr restSorted [first] (by simp))
        have h2 : (msrRows rowThr gapThr restSorted [first]).flatten.length = regions.length := by
          rw [msrRowsFlatten]
          simpa using hperm.length_eq
        omega

theorem bboxPairsConcat (acc : List (ℕ × Rect)) (p : ℕ × Rect) (h : acc ≠ []) :
    bboxPairs (acc ++ [p]) = rectUnion (bboxPairs acc) p.2 := by
  rw [bboxPairs, bboxPairs, List.map_append]
  exact bboxListConcat _ _ (by simpa using h)

theorem innerForGhost (thr : ℚ) (i : ℕ) :
    ∀ (rest acc : List (ℕ × Rect)) (used : List ℕ), acc ≠ [] →
    innerFor thr i rest (bboxPairs acc) used =
      (bboxPairs (ginnerFor thr i rest acc used).1,
       (ginnerFor thr i rest acc used).2.1,
       (ginnerFor thr i rest acc used).2.2) := by
  intro rest
  induction rest with
  | nil => intro acc used _; rfl
  | cons p rest ih =>
    intro acc used hacc
    simp only [innerFor, ginnerFor]
    by_cases h1 : p.1 ∈ used ∨ i = p.1
    · rw [if_pos h1, if_pos h1]
      exact ih acc used hacc
    · rw [if_neg h1, if_neg h1]
      by_cases h2 : shouldMerge thr (bboxPairs acc) p.2
      · rw [if_pos h2, if_pos h2]
        have hconcat := bboxPairsConcat acc p hacc
        have hrec := ih (acc ++ [p]) (p.1 :: used) (by simp)
        rw [← hconcat, hrec]
      · rw [if_neg h2, if_neg h2]
        exact ih acc used hacc

theorem ginnerForDelta (thr : ℚ) (i : ℕ) :
    ∀ (rest acc : List (ℕ × Rect)) (used : List ℕ),
    ∃ d : List (ℕ × Rect),
      (ginnerFor thr i rest acc used).1 = acc ++ d ∧
      (ginnerFor thr i rest acc used).2.1 = (d.map Prod.fst).reverse ++ used ∧
      (∀ q ∈ d, q ∈ rest) ∧
      (∀ j ∈ d.map Prod.fst, j ∉ used) ∧
      (d.map Prod.fst).Nodup := by
  intro rest
  induction rest with
  | nil =>
    intro acc used
    exact ⟨[], by simp [ginnerFor], by simp [ginnerFor], by simp, by simp, by simp⟩
  | cons p rest ih =>
    intro acc used
    simp only [ginnerFor]
    by_cases h1 : p.1 ∈ used ∨ i = p.1
    · rw [if_pos h1]
      obtain ⟨d, ha, hb, hc, hd, hn⟩ := ih acc used
      exact ⟨d, ha, hb, fun q hq => by simp [hc q hq], hd, hn⟩
    · rw [if_neg h1]
      by_cases h2 : shouldMerge thr (bboxPairs acc) p.2
      · rw [if_pos h2]
        obtain ⟨d, ha, hb, hc, hd, hn⟩ := ih (acc ++ [p]) (p.1 :: used)
        push_neg at h1
        refine ⟨p :: d, ?_, ?_, ?_, ?_, ?_⟩
        · simp only [ha, List.append_assoc, List.singleton_append]
        · simp only [hb, List.map_cons, List.reverse_cons, List.append_assoc,
            List.singleton_append]
        · intro q hq
          rcases List.mem_cons.mp hq with he | hq2
          · simp [he]
          · simp [hc q hq2]
        · intro j hj
          simp only [List.map_cons, List.mem_cons] at hj
          rcases hj with he | hj2
          · exact he ▸ h1.1
          · have := hd j hj2
            simp only [List.mem_cons, not_or] at this
            exact this.2
        · simp only [List.map_cons, List.nodup_cons]
          refine ⟨?_, hn⟩
          intro hmem
          have := hd p.1 hmem
          simp at this
      · rw [if_neg h2]
        obtain ⟨d, ha, hb, hc, hd, hn⟩ := ih acc used
        exact ⟨d, ha, hb, fun q hq => by simp [hc q hq], hd, hn⟩

theorem ggrowLoopGhost (thr : ℚ) (i : ℕ) (pairs : List (ℕ × Rect)) :
    ∀ (fuel : ℕ) (acc : List (ℕ × Rect)) (used : List ℕ), acc ≠ [] →
    growLoop thr i pairs fuel (bboxPairs acc) used =
      (bboxPairs (ggrowLoop thr i pairs fuel acc used).1,
       (ggrowLoop thr i pairs fuel acc used).2) := by
  intro fuel
  induction fuel with
  | zero => intro acc used _; rfl
  | succ fuel ih =>
    intro acc used hacc
    simp only [growLoop, ggrowLoop]
    rw [innerForGhost thr i pairs acc used hacc]
    obtain ⟨d, ha, _, _, _, _⟩ := ginnerForDelta thr i pairs acc used
    have hne : (ginnerFor thr i pairs acc used).1 ≠ [] := by
      rw [ha]
      simp [hacc]
    by_cases hb : (ginnerFor thr i pairs acc used).2.2 = true
    · simp only [hb, if_true]
      exact ih _ _ hne
    · simp [hb]

theorem ggrowLoopDelta (thr : ℚ) (i : ℕ) (pairs : List (ℕ × Rect)) :
    ∀ (fuel : ℕ) (acc : List (ℕ × Rect)) (used : List ℕ),
    ∃ d : List (ℕ × Rect),
      (ggrowLoop thr i pairs fuel acc used).1 = acc ++ d ∧
      (ggrowLoop thr i pairs fuel acc used).2 = (d.map Prod.fst).reverse ++ used ∧
      (∀ q ∈ d, q ∈ pairs) ∧
      (∀ j ∈ d.map Prod.fst, j ∉ used) ∧
      (d.map Prod.fst).Nodup := by
  intro fuel
  induction fuel with
  | zero =>
    intro acc used
    exact ⟨[], by simp [ggrowLoop], by simp [ggrowLoop], by simp, by simp, by simp⟩
  | succ fuel ih =>
    intro acc used
    simp only [ggrowLoop]
    obtain ⟨d1, ha1, hb1, hc1, hd1, hn1⟩ := ginnerForDelta thr i pairs acc used
    by_cases hb : (ginnerFor thr i pairs acc used).2.2 = true
    · simp only [hb, if_true]
      obtain ⟨d2, ha2, hb2, hc2, hd2, hn2⟩ :=
        ih (ginnerFor thr i pairs acc used).1 (ginnerFor thr i pairs acc used).2.1
      have hfresh2 : ∀ j ∈ d2.map Prod.fst, j ∉ used ∧ j ∉ d1.map Prod.fst := by
        intro j hj
        have := hd2 j hj
        rw [hb1] at this
        simp only [List.mem_append, List.mem_reverse, not_or] at this
        exact ⟨this.2, this.1⟩
      refine ⟨d1 ++ d2, ?_, ?_, ?_, ?_, ?_⟩
      · rw [ha2, ha1, List.append_assoc]
      · rw [hb2, hb1, List.map_append, List.reverse_append]
        simp [List.append_assoc]
      · intro q hq
        rcases List.mem_append.mp hq with h | h
        · exact hc1 q h
        · exact hc2 q h
      · intro j hj
        rw [List.map_append] at hj
        rcases List.mem_append.mp hj with h | h
        · exact hd1 j h
        · exact (hfresh2 j h).1
      · rw [List.map_append]
        refine List.Nodup.append hn1 hn2 ?_
        rw [List.disjoint_left]
        intro j hj1 hj2
        exact (hfresh2 j hj2).2 hj1
    · simp only [hb, Bool.false_eq_true, if_false]
      exact ⟨d1, ha1, hb1, hc1, hd1, hn1⟩

theorem outerForGhost (thr : ℚ) (pairs : List (ℕ × Rect)) :
    ∀ (todo : List (ℕ × Rect)) (used : List ℕ),
    outerFor thr pairs todo used = ((gouterFor thr pairs todo used).1).map bboxPairs := by
  intro todo
  induction todo with
  | nil => intro used; rfl
  | cons p rest ih =>
    intro used
    simp only [outerFor, gouterFor]
    by_cases h1 : p.1 ∈ used
    · rw [if_pos h1, if_pos h1]
      exact ih used
    · rw [if_neg h1, if_neg h1]
      have hgrow := ggrowLoopGhost thr p.1 pairs pairs.length [p] (p.1 :: used) (by simp)
      have hsingle : bboxPairs [p] = p.2 := rfl
      rw [← hsingle, hgrow]
      simp only [List.map_cons, List.cons.injEq]
      exact ⟨trivial, ih _⟩

theorem gouterForInvariant (thr : ℚ) (pairs : List (ℕ × Rect)) :
    ∀ (todo : List (ℕ × Rect)) (used : List ℕ),
    used.Nodup → (∀ p ∈ todo, p ∈ pairs) →
    (∀ g ∈ (gouterFor thr pairs todo used).1, g ≠ [] ∧ ∀ q ∈ g, q ∈ pairs) ∧
    (gouterFor thr pairs todo used).2.Nodup ∧
    ((gouterFor thr pairs todo used).2 : Multiset ℕ)
      = (((gouterFor thr pairs todo used).1.flatten.map Prod.fst : List ℕ) : Multiset ℕ)
        + (used : Multiset ℕ) ∧
    (∀ j ∈ used, j ∈ (gouterFor thr pairs todo used).2) ∧
    (∀ p ∈ todo, p.1 ∈ (gouterFor thr pairs todo used).2) := by
  intro todo
  induction todo with
  | nil =>
    intro used hnd _
    refine ⟨by simp [gouterFor], by simpa [gouterFor] using hnd, by simp [gouterFor],
      by simp [gouterFor], by simp⟩
  | cons p rest ih =>
    intro used hnd hmem
    simp only [gouterFor]
    by_cases h1 : p.1 ∈ used
    · rw [if_pos h1]
      have ihres := ih used hnd (fun q hq => hmem q (by simp [hq]))
      refine ⟨ihres.1, ihres.2.1, ihres.2.2.1, ihres.2.2.2.1, ?_⟩
      intro q hq
      rcases List.mem_cons.mp hq with he | hq2
      · exact he ▸ ihres.2.2.2.1 p.1 h1
      · exact ihres.2.2.2.2 q hq2
    · rw [if_neg h1]
      obtain ⟨d, ha, hb, hc, hdl, hn⟩ :=
        ggrowLoopDelta thr p.1 pairs pairs.length [p] (p.1 :: used)
      have hfresh : ∀ j ∈ d.map Prod.fst, j ≠ p.1 ∧ j ∉ used := by
        intro j hj
        have := hdl j hj
        simp only [List.mem_cons, not_or] at this
        exact this
      have hnd1 : (ggrowLoop thr p.1 pairs pairs.length [p] (p.1 :: used)).2.Nodup := by
        rw [hb]
        refine List.Nodup.append (by simpa using hn) ?_ ?_
        · exact List.nodup_cons.mpr ⟨h1, hnd⟩
        · rw [List.disjoint_left]
          intro j hj
          rw [List.mem_reverse] at hj
          simp only [List.mem_cons, not_or]
          exact hfresh j hj
      have ihres := ih _ hnd1 (fun q hq => hmem q (by simp [hq]))
      have husedmono : ∀ j ∈ (ggrowLoop thr p.1 pairs pairs.length [p] (p.1 :: used)).2,
          j ∈ (gouterFor thr pairs rest
            (ggrowLoop thr p.1 pairs pairs.length [p] (p.1 :: used)).2).2 :=
        ihres.2.2.2.1
      refine ⟨?_, ihres.2.1, ?_, ?_, ?_⟩
      · intro g hg
        rcases List.mem_cons.mp hg with he | hg2
        · subst he
          rw [ha]
          refine ⟨by simp, ?_⟩
          intro q hq
          rcases List.mem_append.mp hq with h | h
          · rw [List.mem_singleton] at h
            exact h ▸ hmem p (by simp)
          · exact hc q h
        · exact ihres.1 g hg2
      · dsimp only
        rw [ihres.2.2.1, hb, ha]
        simp only [List.flatten_cons, List.map_append, List.singleton_append, List.map_cons,
          ← Multiset.coe_add, Multiset.coe_reverse, ← Multiset.cons_coe,
          ← Multiset.singleton_add]
        abel
      · intro j hj
        refine husedmono j ?_
        rw [hb]
        simp [hj]
      · intro q hq
        rcases List.mem_cons.mp hq with he | hq2
        · refine he ▸ husedmono p.1 ?_
          rw [hb]
          simp
        · exact ihres.2.2.2.2 q hq2

theorem enumEqRangeMap (l : List Rect) :
    l.enum = (List.range l.length).map
      (fun j => (j, (l.get? j).getD ⟨0, 0, 0, 0⟩)) := by
  refine List.ext_get (by simp) ?_
  intro i h1 h2
  have hi : i < l.length := by simpa using h1
  simp [List.getElem_enum, List.get?_eq_getElem?, List.getElem?_eq_getElem hi]

theorem mergePartitionExists (regions : List Rect) (thr : ℚ) :
    ∃ parts : List (List Rect),
      (∀ p ∈ parts, p ≠ []) ∧
      parts.flatten.Perm regions ∧
      mergeOverlappingRegions regions thr = parts.map bboxList ∧
      (∀ p ∈ parts, ∀ r ∈ p, rectContains (bboxList p) r) ∧
      (mergeOverlappingRegions regions thr).length ≤ regions.length := by
  by_cases he : regions.isEmpty
  · refine ⟨[], by simp, ?_, ?_, by simp, ?_⟩
    · rw [List.isEmpty_iff.mp he]
      simp
    · rw [mergeOverlappingRegions, if_pos he]
      rfl
    · rw [mergeOverlappingRegions, if_pos he]
      simp
  · obtain ⟨hG, hnd, hms, -, hcov⟩ :=
      gouterForInvariant thr regions.enum regions.enum [] List.nodup_nil (fun p hp => hp)
    set G := (gouterFor thr regions.enum regions.enum []).1 with hGdef
    set usedF := (gouterFor thr regions.enum regions.enum []).2 with hUdef
    have hperm_ids : usedF.Perm (G.flatten.map Prod.fst) := by
      rw [← Multiset.coe_eq_coe]
      simpa using hms
    have hids_nodup : (G.flatten.map Prod.fst).Nodup := hperm_ids.nodup_iff.mp hnd
    have hflatmem : ∀ q ∈ G.flatten, q ∈ regions.enum := by
      intro q hq
      obtain ⟨g, hg, hqg⟩ := List.mem_flatten.mp hq
      exact (hG g hg).2 q hqg
    have hids_sub : (G.flatten.map Prod.fst) ⊆ List.range regions.length := by
      intro j hj
      obtain ⟨q, hq, rfl⟩ := List.mem_map.mp hj
      have hqe := hflatmem q hq
      rw [List.mem_enum_iff_get?] at hqe
      exact List.mem_range.mpr (List.get?_eq_some.mp hqe).1
    have hrange_sub : List.range regions.length ⊆ (G.flatten.map Prod.fst) := by
      intro j hj
      have hjlt := List.mem_range.mp hj
      have hq : (j, regions.get ⟨j, hjlt⟩) ∈ regions.enum := by
        rw [List.mem_enum_iff_get?]
        exact List.get?_eq_get hjlt
      exact hperm_ids.mem_iff.mp (hcov _ hq)
    have hids_perm : (G.flatten.map Prod.fst).Perm (List.range regions.length) :=
      List.Subperm.antisymm
        (List.subperm_of_subset hids_nodup hids_sub)
        (List.subperm_of_subset (List.nodup_range _) hrange_sub)
    have hflat_eq : G.flatten = (G.flatten.map Prod.fst).map
        (fun j => (j, (regions.get? j).getD ⟨0, 0, 0, 0⟩)) := by
      rw [List.map_map]
      conv_lhs => rw [← List.map_id G.flatten]
      refine List.map_congr_left ?_
      intro q hq
      have hqe := hflatmem q hq
      rw [List.mem_enum_iff_get?] at hqe
      rw [List.get?_eq_getElem?] at hqe
      simp [hqe]
    have hflat_perm : (G.flatten).Perm regions.enum := by
      rw [hflat_eq, enumEqRangeMap regions]
      exact hids_perm.map _
    have hparts_ne : ∀ p ∈ G.map (List.map Prod.snd), p ≠ [] := by
      intro p hp
      obtain ⟨g, hg, rfl⟩ := List.mem_map.mp hp
      have hgne := (hG g hg).1
      simpa using hgne
    have hparts_flat : (G.map (List.map Prod.snd)).flatten = G.flatten.map Prod.snd :=
      (List.map_flatten _ _).symm
    have hmerge_eq : mergeOverlappingRegions regions thr
        = (G.map (List.map Prod.snd)).map bboxList := by
      rw [mergeOverlappingRegions, if_neg he, outerForGhost, ← hGdef, List.map_map]
      rfl
    refine ⟨G.map (List.map Prod.snd), hparts_ne, ?_, hmerge_eq, ?_, ?_⟩
    · rw [hparts_flat]
      have hp2 := hflat_perm.map Prod.snd
      rwa [List.enum_map_snd] at hp2
    · intro p hp
      obtain ⟨g, hg, rfl⟩ := List.mem_map.mp hp
      exact bboxContains _
    · have hlen1 := lengthLeFlatten (G.map (List.map Prod.snd)) hparts_ne
      rw [hparts_flat, List.length_map, List.length_map] at hlen1
      have hlen2 : G.flatten.length = regions.length := by
        rw [hflat_perm.length_eq, List.enum_length]
      rw [hmerge_eq, List.length_map, List.length_map]
      omega

/-- C10: every region returned by mergeOverlappingRegions and by
mergeSameRowRegions is the bounding-box union of a nonempty group of input
regions, and these groups partition the input list (their concatenation is a
permutation of the input): every input region lies in the group of exactly
one output region and is geometrically contained in that output region, and
each output list is never longer than the input list. -/
theorem c10_merge_partition (regions : List Rect) (thr rowThr gapThr : ℚ) :
    (∃ parts : List (List Rect),
      (∀ p ∈ parts, p ≠ []) ∧
      parts.flatten.Perm regions ∧
      mergeOverlappingRegions regions thr = parts.map bboxList ∧
      (∀ p ∈ parts, ∀ r ∈ p, rectContains (bboxList p) r) ∧
      (mergeOverlappingRegions regions thr).length ≤ regions.length) ∧
    (∃ parts : List (List Rect),
      (∀ p ∈ parts, p ≠ []) ∧
      parts.flatten.Perm regions ∧
      mergeSameRowRegions regions rowThr gapThr = parts.map bboxList ∧
      (∀ p ∈ parts, ∀ r ∈ p, rectContains (bboxList p) r) ∧
      (mergeSameRowRegions regions rowThr gapThr).length ≤ regions.length) :=
  ⟨mergePartitionExists regions thr, msrPartitionExists regions rowThr gapThr⟩
